import Mathlib

/-!
Verification of the referral-network core: a shallow embedding of
`ReferralNetwork` (graph construction with invariants, reachability-based
rankings) and `Simulation` (growth simulation plus two binary-search
inverse utilities), together with proofs of the specified properties.

JavaScript `Map`s are embedded as association lists (first entry wins,
`set` replaces the first binding in place or appends a fresh key at the
end, exactly as insertion-ordered `Map`s behave), JavaScript `Set`s as
duplicate-free lists in insertion order, and JavaScript numbers as `ℚ`
(the simulator only ever adds, halves and floors, so rationals model the
intended exact arithmetic), with `Math.floor` as `Int.floor`.  Functions
that `throw` return `Except String`.
-/

attribute [local semireducible] Rat.add Rat.mul Rat.inv Rat.sub

/-- Decidable equality on `Except`, so concrete runs can be checked by
evaluation. -/
instance {ε α : Type} [DecidableEq ε] [DecidableEq α] :
    DecidableEq (Except ε α) := fun x y =>
  match x, y with
  | .error u, .error v =>
    if h : u = v then .isTrue (congrArg Except.error h)
    else .isFalse (fun hc => h (Except.error.inj hc))
  | .ok u, .ok v =>
    if h : u = v then .isTrue (congrArg Except.ok h)
    else .isFalse (fun hc => h (Except.ok.inj hc))
  | .error _, .ok _ => .isFalse (fun hc => Except.noConfusion hc)
  | .ok _, .error _ => .isFalse (fun hc => Except.noConfusion hc)

namespace ReferralNet

/-- `map.get(k)` on an association list: first binding wins. -/
def lookupA {α : Type} (m : List (String × α)) (k : String) : Option α :=
  match m with
  | [] => none
  | (k', v) :: rest => if k' = k then some v else lookupA rest k

/-- `map.set(k, v)`: replace the first binding of `k`, or append it. -/
def setA {α : Type} (m : List (String × α)) (k : String) (v : α) :
    List (String × α) :=
  match m with
  | [] => [(k, v)]
  | (k', v') :: rest =>
      if k' = k then (k, v) :: rest else (k', v') :: setA rest k v

/-- Update the value stored at `k` in place (no-op if `k` is absent). -/
def updateA {α : Type} (m : List (String × α)) (k : String) (f : α → α) :
    List (String × α) :=
  match m with
  | [] => []
  | (k', v') :: rest =>
      if k' = k then (k', f v') :: rest else (k', v') :: updateA rest k f

/-- The state of a `ReferralNetwork` instance. -/
structure RNet where
  /-- `this.users`, a `Set` of user ids. -/
  users : List String
  /-- `this.graph`, adjacency: referrer to list of direct candidates. -/
  graph : List (String × List String)
  /-- `this.directReferrals`, referrer to `Set` of direct candidates. -/
  directReferrals : List (String × List String)
  /-- `this.referrerOf`, candidate to its referrer. -/
  referrerOf : List (String × String)
  deriving Repr, DecidableEq

/-- The freshly constructed network. -/
def emptyNet : RNet := ⟨[], [], [], []⟩

/-- `this.graph.get(node) || []`. -/
def adj (g : List (String × List String)) (n : String) : List String :=
  (lookupA g n).getD []

/-- `addUser(userId)`. -/
def addUser (net : RNet) (u : String) : RNet :=
  { users := if u ∈ net.users then net.users else net.users ++ [u]
    graph :=
      if (lookupA net.graph u).isSome then net.graph
      else net.graph ++ [(u, [])]
    directReferrals :=
      if (lookupA net.directReferrals u).isSome then net.directReferrals
      else net.directReferrals ++ [(u, [])]
    referrerOf := net.referrerOf }

/-- All node names mentioned by the adjacency structure (keys and
adjacency-list entries); used to size the DFS/BFS fuel. -/
def allNodes (g : List (String × List String)) : List String :=
  g.map Prod.fst ++ (g.map Prod.snd).flatten

/-- The inner neighbour loop of the recursive `dfs`, abstracted over the
recursive call so the whole search is structural in the fuel: folds the
search over a neighbour list, threading the visited set and stopping at
the first `true`. -/
def dfsListGo
    (rec : List String → String → Option (Bool × List String)) :
    List String → List String → Option (Bool × List String)
  | vis, [] => some (false, vis)
  | vis, n :: rest =>
    match rec vis n with
    | none => none
    | some (true, vis') => some (true, vis')
    | some (false, vis') => dfsListGo rec vis' rest

/-- The recursive `dfs` closure of `wouldCreateCycle`, with explicit
fuel (the JavaScript recursion is unbounded; `none` means the fuel ran
out, which never happens at the fuel used by `wouldCreateCycle`).
Returns the Boolean result together with the final `visited` set. -/
def dfsNode (g : List (String × List String)) (target : String) :
    Nat → List String → String → Option (Bool × List String)
  | fuel, vis, node =>
    if node = target then some (true, vis)
    else if node ∈ vis then some (false, vis)
    else
      match fuel with
      | 0 => none
      | f + 1 => dfsListGo (dfsNode g target f) (node :: vis) (adj g node)

/-- `dfs` folded over a neighbour list at a fixed fuel. -/
def dfsList (g : List (String × List String)) (target : String)
    (fuel : Nat) :
    List String → List String → Option (Bool × List String) :=
  dfsListGo (dfsNode g target fuel)

lemma dfsNode_eq (g : List (String × List String)) (t : String)
    (fuel : Nat) (vis : List String) (node : String) :
    dfsNode g t fuel vis node =
      if node = t then some (true, vis)
      else if node ∈ vis then some (false, vis)
      else match fuel with
        | 0 => none
        | f + 1 => dfsList g t f (node :: vis) (adj g node) := by
  cases fuel <;> rfl

lemma dfsList_nil (g : List (String × List String)) (t : String)
    (fuel : Nat) (vis : List String) :
    dfsList g t fuel vis [] = some (false, vis) := rfl

lemma dfsList_cons (g : List (String × List String)) (t : String)
    (fuel : Nat) (vis : List String) (n : String) (rest : List String) :
    dfsList g t fuel vis (n :: rest) =
      match dfsNode g t fuel vis n with
      | none => none
      | some (true, vis') => some (true, vis')
      | some (false, vis') => dfsList g t fuel vis' rest := rfl

/-- `wouldCreateCycle(referrerId, candidateId)`: DFS from the candidate
looking for the referrer. -/
def wouldCreateCycle (net : RNet) (r c : String) : Bool :=
  match dfsNode net.graph r ((allNodes net.graph).dedup.length + 1) [] c with
  | some (b, _) => b
  | none => false

/-- `addReferral(referrerId, candidateId)`: validates both endpoints,
rejects self-referrals, second referrers and cycles with `false`, and
otherwise commits the edge and returns `true`. -/
def addReferral (net : RNet) (r c : String) :
    Except String (Bool × RNet) :=
  if r ∉ net.users then
    .error s!"Referrer {r} does not exist in the network"
  else if c ∉ net.users then
    .error s!"Candidate {c} does not exist in the network"
  else if r = c then .ok (false, net)
  else if (lookupA net.referrerOf c).isSome then .ok (false, net)
  else if wouldCreateCycle net r c then .ok (false, net)
  else
    .ok (true,
      { users := net.users
        graph := updateA net.graph r (fun l => l ++ [c])
        directReferrals :=
          updateA net.directReferrals r
            (fun l => if c ∈ l then l else l ++ [c])
        referrerOf := setA net.referrerOf c r })

/-- `getDirectReferrals(userId)`. -/
def getDirectReferrals (net : RNet) (u : String) :
    Except String (List String) :=
  if u ∉ net.users then
    .error s!"User {u} does not exist in the network"
  else .ok ((lookupA net.directReferrals u).getD [])

/-- One construction step: `addUser` or `addReferral` (a thrown
`UnknownUser` error leaves the state untouched). -/
inductive NetOp where
  | user (u : String)
  | referral (r c : String)
  deriving Repr, DecidableEq

/-- Apply one operation to a network state. -/
def applyOp (net : RNet) : NetOp → RNet
  | .user u => addUser net u
  | .referral r c =>
    match addReferral net r c with
    | .ok (_, net') => net'
    | .error _ => net

/-- The network obtained by running a sequence of calls from scratch. -/
def buildNet (ops : List NetOp) : RNet :=
  ops.foldl applyOp emptyNet

/-- Forward reachability along referral edges (reflexive-transitive). -/
inductive Reaches (g : List (String × List String)) :
    String → String → Prop
  | refl (a : String) : Reaches g a a
  | step {a b c' : String} :
      b ∈ adj g a → Reaches g b c' → Reaches g a c'

/-- No directed cycle: no edge `n → b` with a path back from `b` to `n`. -/
def Acyclic (g : List (String × List String)) : Prop :=
  ∀ n b, b ∈ adj g n → ¬ Reaches g b n

/-- Number of incoming referral edges of `c` (counting multiplicity
across all adjacency lists). -/
def inDegree (g : List (String × List String)) (c : String) : Nat :=
  (g.map (fun e => e.2.count c)).sum

/-- How many graph nodes are not yet visited; the DFS/BFS fuel budget. -/
def mfree (g : List (String × List String)) (vis : List String) : Nat :=
  ((allNodes g).dedup.filter (fun x => x ∉ vis)).length

lemma lookupA_mem {α : Type} {m : List (String × α)} {k : String} {v : α}
    (h : lookupA m k = some v) : (k, v) ∈ m := by
  induction m with
  | nil => simp [lookupA] at h
  | cons e rest ih =>
    obtain ⟨k', v'⟩ := e
    by_cases hk : k' = k
    · subst hk
      simp [lookupA] at h
      simp [h]
    · simp only [lookupA, if_neg hk] at h
      exact List.mem_cons_of_mem _ (ih h)

lemma adj_sub_allNodes {g : List (String × List String)} {n b : String}
    (h : b ∈ adj g n) : b ∈ allNodes g := by
  unfold adj at h
  cases hl : lookupA g n with
  | none => rw [hl] at h; simp at h
  | some l =>
    rw [hl] at h
    simp only [Option.getD_some] at h
    have hmem : (n, l) ∈ g := lookupA_mem hl
    unfold allNodes
    refine List.mem_append.mpr (Or.inr ?_)
    exact List.mem_flatten.mpr ⟨l, List.mem_map.mpr ⟨(n, l), hmem, rfl⟩, h⟩

lemma mfree_anti {g : List (String × List String)} {vis vis' : List String}
    (h : vis ⊆ vis') : mfree g vis' ≤ mfree g vis := by
  unfold mfree
  apply List.Sublist.length_le
  apply List.monotone_filter_right
  intro a ha
  simp only [decide_eq_true_eq] at ha ⊢
  exact fun hmem => ha (h hmem)

lemma length_filter_cons_lt {l vis : List String} {n : String}
    (hn : n ∈ l) (hnv : n ∉ vis) :
    (l.filter (fun x => x ∉ n :: vis)).length <
      (l.filter (fun x => x ∉ vis)).length := by
  induction l with
  | nil => simp at hn
  | cons a l ih =>
    by_cases ha : a = n
    · subst ha
      have h1 : (decide (a ∉ a :: vis)) = false := by simp
      have h2 : (decide (a ∉ vis)) = true := by simpa using hnv
      simp only [List.filter_cons, h1, h2, if_neg Bool.false_ne_true,
        if_pos rfl]
      have hle : (l.filter (fun x => x ∉ a :: vis)).length ≤
          (l.filter (fun x => x ∉ vis)).length := by
        apply List.Sublist.length_le
        apply List.monotone_filter_right
        intro x hx
        simp only [decide_eq_true_eq, List.mem_cons, not_or] at hx ⊢
        exact hx.2
      simpa using Nat.lt_succ_of_le hle
    · have hn' : n ∈ l := by
        rcases List.mem_cons.mp hn with h | h
        · exact absurd h.symm ha
        · exact h
      have heq : (decide (a ∉ n :: vis)) = (decide (a ∉ vis)) := by
        by_cases hav : a ∈ vis
        · simp [hav]
        · simp [hav, ha]
      by_cases hav : a ∈ vis
      · have : (decide (a ∉ vis)) = false := by simpa using hav
        simp only [List.filter_cons, heq, this, if_neg Bool.false_ne_true]
        exact ih hn'
      · have : (decide (a ∉ vis)) = true := by simpa using hav
        simp only [List.filter_cons, heq, this, if_pos rfl]
        simpa using Nat.succ_lt_succ (ih hn')

lemma mfree_cons_lt {g : List (String × List String)} {vis : List String}
    {n : String} (hn : n ∈ allNodes g) (hnv : n ∉ vis) :
    mfree g (n :: vis) < mfree g vis :=
  length_filter_cons_lt (List.mem_dedup.mpr hn) hnv

/-- Postcondition of a `false` DFS answer: every newly visited node is
distinct from the target and all its successors are visited. -/
lemma dfs_false (g : List (String × List String)) (t : String) (fuel : Nat) :
    (∀ vis node vout, dfsNode g t fuel vis node = some (false, vout) →
      vis ⊆ vout ∧ node ∈ vout ∧
        ∀ z ∈ vout, z ∉ vis → z ≠ t ∧ ∀ b ∈ adj g z, b ∈ vout) ∧
    (∀ vis l vout, dfsList g t fuel vis l = some (false, vout) →
      vis ⊆ vout ∧ (∀ n ∈ l, n ∈ vout) ∧
        ∀ z ∈ vout, z ∉ vis → z ≠ t ∧ ∀ b ∈ adj g z, b ∈ vout) := by
  induction fuel using Nat.strong_induction_on with
  | _ fuel IH =>
    have hnode : ∀ vis node vout,
        dfsNode g t fuel vis node = some (false, vout) →
        vis ⊆ vout ∧ node ∈ vout ∧
          ∀ z ∈ vout, z ∉ vis → z ≠ t ∧ ∀ b ∈ adj g z, b ∈ vout := by
      intro vis node vout h
      rw [dfsNode_eq] at h
      by_cases h1 : node = t
      · simp [h1] at h
      · rw [if_neg h1] at h
        by_cases h2 : node ∈ vis
        · rw [if_pos h2] at h
          obtain rfl : vis = vout := by simpa using h
          exact ⟨fun _ hx => hx, h2, fun z hz hz' => absurd hz hz'⟩
        · rw [if_neg h2] at h
          cases fuel with
          | zero => simp at h
          | succ f =>
            obtain ⟨hsub, hmem, hclosed⟩ :=
              (IH f (Nat.lt_succ_self f)).2 (node :: vis) (adj g node) vout h
            refine ⟨fun x hx => hsub (List.mem_cons_of_mem _ hx),
              hsub (List.mem_cons_self _ _), ?_⟩
            intro z hz hzvis
            by_cases hzn : z = node
            · subst hzn
              exact ⟨h1, fun b hb => hmem b hb⟩
            · exact hclosed z hz (by simp [hzn, hzvis])
    refine ⟨hnode, ?_⟩
    intro vis l
    induction l generalizing vis with
    | nil =>
      intro vout h
      rw [dfsList_nil] at h
      obtain rfl : vis = vout := by simpa using h
      exact ⟨fun _ hx => hx, by simp, fun z hz hz' => absurd hz hz'⟩
    | cons n rest ihl =>
      intro vout h
      rw [dfsList_cons] at h
      cases hd : dfsNode g t fuel vis n with
      | none => rw [hd] at h; simp at h
      | some p =>
        obtain ⟨b, v1⟩ := p
        rw [hd] at h
        cases b with
        | true => simp at h
        | false =>
          obtain ⟨hsub1, hmem1, hcl1⟩ := hnode vis n v1 hd
          obtain ⟨hsub2, hmem2, hcl2⟩ := ihl v1 vout h
          refine ⟨fun x hx => hsub2 (hsub1 hx), ?_, ?_⟩
          · intro x hx
            rcases List.mem_cons.mp hx with rfl | hx'
            · exact hsub2 hmem1
            · exact hmem2 x hx'
          · intro z hz hzvis
            by_cases hzv1 : z ∈ v1
            · obtain ⟨hzt, hadj⟩ := hcl1 z hzv1 hzvis
              exact ⟨hzt, fun b hb => hsub2 (hadj b hb)⟩
            · exact hcl2 z hz hzv1

/-- Soundness of a `true` DFS answer: a path to the target exists. -/
lemma dfs_true (g : List (String × List String)) (t : String) (fuel : Nat) :
    (∀ vis node vout, dfsNode g t fuel vis node = some (true, vout) →
      Reaches g node t) ∧
    (∀ vis l vout, dfsList g t fuel vis l = some (true, vout) →
      ∃ n ∈ l, Reaches g n t) := by
  induction fuel using Nat.strong_induction_on with
  | _ fuel IH =>
    have hnode : ∀ vis node vout,
        dfsNode g t fuel vis node = some (true, vout) → Reaches g node t := by
      intro vis node vout h
      rw [dfsNode_eq] at h
      by_cases h1 : node = t
      · subst h1; exact Reaches.refl node
      · rw [if_neg h1] at h
        by_cases h2 : node ∈ vis
        · rw [if_pos h2] at h; simp at h
        · rw [if_neg h2] at h
          cases fuel with
          | zero => simp at h
          | succ f =>
            obtain ⟨n, hn, hr⟩ :=
              (IH f (Nat.lt_succ_self f)).2 (node :: vis) (adj g node) vout h
            exact Reaches.step hn hr
    refine ⟨hnode, ?_⟩
    intro vis l
    induction l generalizing vis with
    | nil => intro vout h; rw [dfsList_nil] at h; simp at h
    | cons n rest ihl =>
      intro vout h
      rw [dfsList_cons] at h
      cases hd : dfsNode g t fuel vis n with
      | none => rw [hd] at h; simp at h
      | some p =>
        obtain ⟨b, v1⟩ := p
        rw [hd] at h
        cases b with
        | true => exact ⟨n, List.mem_cons_self n rest, hnode vis n v1 hd⟩
        | false =>
          obtain ⟨x, hx, hr⟩ := ihl v1 vout h
          exact ⟨x, List.mem_cons_of_mem n hx, hr⟩

/-- With fuel exceeding the number of unvisited graph nodes the DFS
never runs out. -/
lemma dfs_some (g : List (String × List String)) (t : String) (fuel : Nat) :
    (∀ vis node, mfree g vis < fuel → (dfsNode g t fuel vis node).isSome) ∧
    (∀ vis l, (∀ n ∈ l, n ∈ allNodes g) → mfree g vis ≤ fuel →
      (dfsList g t fuel vis l).isSome) := by
  induction fuel using Nat.strong_induction_on with
  | _ fuel IH =>
    have hnode : ∀ vis node, mfree g vis < fuel →
        (dfsNode g t fuel vis node).isSome := by
      intro vis node hm
      rw [dfsNode_eq]
      by_cases h1 : node = t
      · simp [h1]
      · rw [if_neg h1]
        by_cases h2 : node ∈ vis
        · simp [h2]
        · rw [if_neg h2]
          cases fuel with
          | zero => exact absurd hm (Nat.not_lt_zero _)
          | succ f =>
            apply (IH f (Nat.lt_succ_self f)).2
            · intro b hb; exact adj_sub_allNodes hb
            · have hle : mfree g (node :: vis) ≤ mfree g vis :=
                mfree_anti (List.subset_cons_self node vis)
              omega
    refine ⟨hnode, ?_⟩
    intro vis l
    induction l generalizing vis with
    | nil => intro _ _; rw [dfsList_nil]; simp
    | cons n rest ihl =>
      intro hall hm
      rw [dfsList_cons]
      by_cases h1 : n = t
      · have hd : dfsNode g t fuel vis n = some (true, vis) := by
          rw [dfsNode_eq]; simp [h1]
        rw [hd]; simp
      · by_cases h2 : n ∈ vis
        · have hd : dfsNode g t fuel vis n = some (false, vis) := by
            rw [dfsNode_eq]; simp [h1, h2]
          rw [hd]
          exact ihl vis (fun x hx => hall x (List.mem_cons_of_mem n hx)) hm
        · have hnall : n ∈ allNodes g := hall n (List.mem_cons_self n rest)
          have hm1 : 1 ≤ mfree g vis := by
            have hmem : n ∈ (allNodes g).dedup.filter
                (fun x => x ∉ vis) := by
              simp [List.mem_filter, List.mem_dedup, hnall, h2]
            have := List.length_pos.mpr (List.ne_nil_of_mem hmem)
            unfold mfree
            omega
          cases fuel with
          | zero => omega
          | succ f =>
            have hd : (dfsNode g t (f + 1) vis n).isSome := by
              rw [dfsNode_eq, if_neg h1, if_neg h2]
              show (dfsList g t f (n :: vis) (adj g n)).isSome
              apply (IH f (Nat.lt_succ_self f)).2
              · intro b hb; exact adj_sub_allNodes hb
              · have := mfree_cons_lt hnall h2
                omega
            obtain ⟨⟨b, v1⟩, hd'⟩ := Option.isSome_iff_exists.mp hd
            rw [hd']
            cases b with
            | true => simp
            | false =>
              have hsub := ((dfs_false g t (f + 1)).1 vis n v1 hd').1
              exact ihl v1
                (fun x hx => hall x (List.mem_cons_of_mem n hx))
                (le_trans (mfree_anti hsub) hm)

lemma reaches_closed {g : List (String × List String)} {vout : List String}
    (hcl : ∀ z ∈ vout, ∀ b ∈ adj g z, b ∈ vout) {a b : String}
    (hr : Reaches g a b) (ha : a ∈ vout) : b ∈ vout := by
  induction hr with
  | refl => exact ha
  | step hstep _ ih => exact ih (hcl _ ha _ hstep)

/-- Correctness of the cycle check: it answers exactly whether the
referrer is reachable from the candidate. -/
theorem wouldCreateCycle_iff (net : RNet) (r c : String) :
    wouldCreateCycle net r c = true ↔ Reaches net.graph c r := by
  unfold wouldCreateCycle
  have hmf : mfree net.graph [] = (allNodes net.graph).dedup.length := by
    unfold mfree; simp
  have hs : (dfsNode net.graph r
      ((allNodes net.graph).dedup.length + 1) [] c).isSome :=
    (dfs_some net.graph r _).1 [] c (by omega)
  obtain ⟨⟨b, vout⟩, hb⟩ := Option.isSome_iff_exists.mp hs
  rw [hb]
  cases b with
  | true =>
    exact iff_of_true rfl ((dfs_true net.graph r _).1 [] c vout hb)
  | false =>
    obtain ⟨hsub, hmem, hcl⟩ := (dfs_false net.graph r _).1 [] c vout hb
    apply iff_of_false (by simp)
    intro hr
    have hcl' : ∀ z ∈ vout, ∀ b ∈ adj net.graph z, b ∈ vout :=
      fun z hz => (hcl z hz (List.not_mem_nil z)).2
    have hrt : r ∈ vout := reaches_closed hcl' hr hmem
    exact (hcl r hrt (List.not_mem_nil r)).1 rfl

/-- Claim C1: `addReferral` fails with the unknown-user error when either
endpoint is unregistered; otherwise it returns `false` — leaving the
state untouched — exactly when the call is a self-referral, the candidate
already has a referrer, or a directed path runs from the candidate to
the referrer; in all remaining cases it returns `true` and commits the
edge to the adjacency view, the direct-referral sets and the reverse
map. -/
theorem addReferral_spec (net : RNet) (r c : String) :
    (¬ (r ∈ net.users ∧ c ∈ net.users) →
      ∃ msg, addReferral net r c = .error msg) ∧
    (r ∈ net.users → c ∈ net.users →
      ((r = c ∨ (lookupA net.referrerOf c).isSome ∨ Reaches net.graph c r) →
        addReferral net r c = .ok (false, net)) ∧
      (¬ (r = c ∨ (lookupA net.referrerOf c).isSome ∨
            Reaches net.graph c r) →
        addReferral net r c = .ok (true,
          { users := net.users
            graph := updateA net.graph r (fun l => l ++ [c])
            directReferrals := updateA net.directReferrals r
              (fun l => if c ∈ l then l else l ++ [c])
            referrerOf := setA net.referrerOf c r }))) := by
  refine ⟨?_, ?_⟩
  · intro hne
    unfold addReferral
    by_cases hr : r ∈ net.users
    · have hc : c ∉ net.users := fun hc => hne ⟨hr, hc⟩
      rw [if_neg (not_not_intro hr), if_pos hc]
      exact ⟨_, rfl⟩
    · rw [if_pos hr]
      exact ⟨_, rfl⟩
  · intro hr hc
    constructor
    · intro hrej
      unfold addReferral
      rw [if_neg (not_not_intro hr), if_neg (not_not_intro hc)]
      by_cases h1 : r = c
      · rw [if_pos h1]
      · rw [if_neg h1]
        by_cases h2 : (lookupA net.referrerOf c).isSome
        · rw [if_pos h2]
        · rw [if_neg h2]
          have h3 : wouldCreateCycle net r c = true := by
            rcases hrej with h | h | h
            · exact absurd h h1
            · exact absurd h h2
            · exact (wouldCreateCycle_iff net r c).mpr h
          rw [if_pos h3]
    · intro hok
      push_neg at hok
      obtain ⟨h1, h2, h3⟩ := hok
      have h3' : ¬ wouldCreateCycle net r c = true :=
        fun hh => h3 ((wouldCreateCycle_iff net r c).mp hh)
      unfold addReferral
      rw [if_neg (not_not_intro hr), if_neg (not_not_intro hc),
        if_neg h1, if_neg h2, if_neg h3']

/-- Witness: a self-referral on a registered user is rejected with
`false` and the state is returned unchanged. -/
theorem addReferral_spec_witness :
    ("A" : String) ∈ (buildNet [.user "A", .user "B"]).users ∧
    addReferral (buildNet [.user "A", .user "B"]) "A" "A" =
      .ok (false, buildNet [.user "A", .user "B"]) :=
  ⟨by decide,
    ((addReferral_spec (buildNet [.user "A", .user "B"]) "A" "A").2
      (by decide) (by decide)).1 (Or.inl rfl)⟩

lemma lookupA_isSome_iff {α : Type} {m : List (String × α)} {k : String} :
    (lookupA m k).isSome ↔ k ∈ m.map Prod.fst := by
  induction m with
  | nil => simp [lookupA]
  | cons e rest ih =>
    obtain ⟨a, v⟩ := e
    by_cases ha : a = k
    · subst ha; simp [lookupA]
    · simp [lookupA, ha, ih, Ne.symm ha]

lemma lookupA_eq_none_iff {α : Type} {m : List (String × α)} {k : String} :
    lookupA m k = none ↔ k ∉ m.map Prod.fst := by
  rw [← lookupA_isSome_iff, Option.not_isSome_iff_eq_none]

lemma lookupA_append_none {α : Type} {m m' : List (String × α)}
    {k : String} (h : lookupA m k = none) :
    lookupA (m ++ m') k = lookupA m' k := by
  induction m with
  | nil => rfl
  | cons e rest ih =>
    obtain ⟨a, v⟩ := e
    by_cases ha : a = k
    · simp [lookupA, ha] at h
    · simp only [lookupA, if_neg ha] at h
      simp only [List.cons_append, lookupA, if_neg ha]
      exact ih h

lemma lookupA_append_some {α : Type} {m m' : List (String × α)}
    {k : String} {v : α} (h : lookupA m k = some v) :
    lookupA (m ++ m') k = some v := by
  induction m with
  | nil => simp [lookupA] at h
  | cons e rest ih =>
    obtain ⟨a, w⟩ := e
    by_cases ha : a = k
    · simp only [lookupA, if_pos ha] at h
      simp only [List.cons_append, lookupA, if_pos ha]
      exact h
    · simp only [lookupA, if_neg ha] at h
      simp only [List.cons_append, lookupA, if_neg ha]
      exact ih h

lemma updateA_keys {α : Type} (m : List (String × α)) (k : String)
    (f : α → α) : (updateA m k f).map Prod.fst = m.map Prod.fst := by
  induction m with
  | nil => simp [updateA]
  | cons e rest ih =>
    obtain ⟨a, v⟩ := e
    by_cases ha : a = k
    · simp [updateA, ha]
    · simp [updateA, ha, ih]

lemma lookupA_updateA_self {α : Type} (m : List (String × α)) (k : String)
    (f : α → α) : lookupA (updateA m k f) k = (lookupA m k).map f := by
  induction m with
  | nil => simp [updateA, lookupA]
  | cons e rest ih =>
    obtain ⟨a, v⟩ := e
    by_cases ha : a = k
    · simp [updateA, lookupA, ha]
    · simp [updateA, lookupA, ha, ih]

lemma lookupA_updateA_ne {α : Type} (m : List (String × α)) {k k' : String}
    (hk : k' ≠ k) (f : α → α) :
    lookupA (updateA m k f) k' = lookupA m k' := by
  induction m with
  | nil => simp [updateA]
  | cons e rest ih =>
    obtain ⟨a, v⟩ := e
    by_cases ha : a = k
    · subst ha
      simp [updateA, lookupA, Ne.symm hk]
    · by_cases ha' : a = k'
      · simp [updateA, lookupA, ha, ha', hk]
      · simp [updateA, lookupA, ha, ha', ih]

lemma setA_of_none {α : Type} {m : List (String × α)} {k : String}
    (h : lookupA m k = none) (v : α) : setA m k v = m ++ [(k, v)] := by
  induction m with
  | nil => simp [setA]
  | cons e rest ih =>
    obtain ⟨a, w⟩ := e
    by_cases ha : a = k
    · simp [lookupA, ha] at h
    · simp only [lookupA, if_neg ha] at h
      simp [setA, ha, ih h]

lemma lookupA_of_mem_nodup {α : Type} {m : List (String × α)}
    {k : String} {v : α} (hnd : (m.map Prod.fst).Nodup)
    (hmem : (k, v) ∈ m) : lookupA m k = some v := by
  induction m with
  | nil => simp at hmem
  | cons e rest ih =>
    obtain ⟨a, w⟩ := e
    simp only [List.map_cons, List.nodup_cons] at hnd
    rcases List.mem_cons.mp hmem with heq | hmem'
    · rw [Prod.mk.injEq] at heq
      obtain ⟨rfl, rfl⟩ := heq
      simp [lookupA]
    · have hak : a ≠ k := by
        rintro rfl
        exact hnd.1 (List.mem_map.mpr ⟨(a, v), hmem', rfl⟩)
      simp only [lookupA, if_neg hak]
      exact ih hnd.2 hmem'

lemma updateA_mem {α : Type} {m : List (String × α)} {k : String}
    {f : α → α} {e : String × α} (h : e ∈ updateA m k f) :
    e ∈ m ∨ ∃ v, lookupA m k = some v ∧ e = (k, f v) := by
  induction m with
  | nil => simp [updateA] at h
  | cons e' rest ih =>
    obtain ⟨a, w⟩ := e'
    by_cases ha : a = k
    · subst ha
      simp only [updateA, if_pos rfl] at h
      rcases List.mem_cons.mp h with rfl | h'
      · exact Or.inr ⟨w, by simp [lookupA], rfl⟩
      · exact Or.inl (List.mem_cons_of_mem _ h')
    · simp only [updateA, if_neg ha] at h
      rcases List.mem_cons.mp h with rfl | h'
      · exact Or.inl (List.mem_cons_self _ _)
      · rcases ih h' with h'' | ⟨v, hv, he⟩
        · exact Or.inl (List.mem_cons_of_mem _ h'')
        · exact Or.inr ⟨v, by simpa [lookupA, ha] using hv, he⟩

lemma updateA_congr {α : Type} {m : List (String × α)} {k : String}
    {f f' : α → α} (h : ∀ v, lookupA m k = some v → f v = f' v) :
    updateA m k f = updateA m k f' := by
  induction m with
  | nil => simp [updateA]
  | cons e rest ih =>
    obtain ⟨a, w⟩ := e
    by_cases ha : a = k
    · subst ha
      have hw := h w (by simp [lookupA])
      simp [updateA, hw]
    · simp only [updateA, if_neg ha]
      rw [ih (fun v hv => h v (by simpa [lookupA, ha] using hv))]

lemma reaches_trans {g : List (String × List String)} {a b c : String}
    (h1 : Reaches g a b) (h2 : Reaches g b c) : Reaches g a c := by
  induction h1 with
  | refl => exact h2
  | step hstep _ ih => exact Reaches.step hstep (ih h2)

lemma reaches_congr {g g' : List (String × List String)}
    (hadj : ∀ x, adj g x = adj g' x) {a b : String}
    (h : Reaches g a b) : Reaches g' a b := by
  induction h with
  | refl a => exact Reaches.refl a
  | step hstep _ ih => exact Reaches.step (hadj _ ▸ hstep) ih

/-- Adjacency after committing the edge `r → c`. -/
lemma adj_update {g : List (String × List String)} {r : String}
    (hsome : (lookupA g r).isSome) (c x : String) :
    adj (updateA g r (fun l => l ++ [c])) x =
      if x = r then adj g r ++ [c] else adj g x := by
  by_cases hx : x = r
  · subst hx
    obtain ⟨l, hl⟩ := Option.isSome_iff_exists.mp hsome
    simp [adj, lookupA_updateA_self, hl]
  · simp [adj, lookupA_updateA_ne _ hx, hx]

/-- Path decomposition after adding the edge `r → c`, given that `r` was
not reachable from `c`. -/
lemma reaches_update {g : List (String × List String)} {r c : String}
    (hsome : (lookupA g r).isSome) (hnc : ¬ Reaches g c r) {a b : String}
    (h : Reaches (updateA g r (fun l => l ++ [c])) a b) :
    Reaches g a b ∨ (Reaches g a r ∧ Reaches g c b) := by
  induction h with
  | refl a => exact Or.inl (Reaches.refl a)
  | @step a0 x b0 hedge _ ih =>
    rw [adj_update hsome] at hedge
    by_cases ha : a0 = r
    · subst ha
      rw [if_pos rfl] at hedge
      rcases List.mem_append.mp hedge with hold | hnew
      · rcases ih with hgb | ⟨hxr, hcb⟩
        · exact Or.inl (Reaches.step hold hgb)
        · exact Or.inr ⟨Reaches.step hold hxr, hcb⟩
      · obtain rfl : x = c := by simpa using hnew
        rcases ih with hgb | ⟨hxr, _⟩
        · exact Or.inr ⟨Reaches.refl a0, hgb⟩
        · exact absurd hxr hnc
    · rw [if_neg ha] at hedge
      rcases ih with hgb | ⟨hxr, hcb⟩
      · exact Or.inl (Reaches.step hedge hgb)
      · exact Or.inr ⟨Reaches.step hedge hxr, hcb⟩

lemma lookupA_append_single_ne {α : Type} (m : List (String × α))
    {y c : String} (h : y ≠ c) (v : α) :
    lookupA (m ++ [(c, v)]) y = lookupA m y := by
  cases hm : lookupA m y with
  | some w => exact lookupA_append_some hm
  | none =>
    rw [lookupA_append_none hm]
    simp [lookupA, Ne.symm h]

/-- Structural well-formedness maintained by every reachable state. -/
structure WF (net : RNet) : Prop where
  usersNodup : net.users.Nodup
  keysEq : net.graph.map Prod.fst = net.users
  drEq : net.directReferrals = net.graph
  adjNodup : ∀ e ∈ net.graph, (Prod.snd e).Nodup
  refKeysNodup : (net.referrerOf.map Prod.fst).Nodup
  refIff : ∀ x y, y ∈ adj net.graph x ↔ lookupA net.referrerOf y = some x
  acyclic : Acyclic net.graph

lemma wf_empty : WF emptyNet := by
  refine ⟨List.nodup_nil, rfl, rfl, ?_, List.nodup_nil, ?_, ?_⟩
  · intro e he; simp [emptyNet] at he
  · intro x y; simp [emptyNet, adj, lookupA]
  · intro n b hb; simp [emptyNet, adj, lookupA] at hb

lemma wf_addUser {net : RNet} (h : WF net) (u : String) :
    WF (addUser net u) := by
  have hiff : (lookupA net.graph u).isSome ↔ u ∈ net.users := by
    rw [lookupA_isSome_iff, h.keysEq]
  by_cases hu : u ∈ net.users
  · have hg : (lookupA net.graph u).isSome := hiff.mpr hu
    have hdr : (lookupA net.directReferrals u).isSome := by
      rw [h.drEq]; exact hg
    have heq : addUser net u = net := by
      unfold addUser
      rw [if_pos hu, if_pos hg, if_pos hdr]
    rw [heq]; exact h
  · have hg : ¬ (lookupA net.graph u).isSome := fun hh => hu (hiff.mp hh)
    have hdr : ¬ (lookupA net.directReferrals u).isSome := by
      rw [h.drEq]; exact hg
    have heq : addUser net u =
        { users := net.users ++ [u]
          graph := net.graph ++ [(u, [])]
          directReferrals := net.directReferrals ++ [(u, [])]
          referrerOf := net.referrerOf } := by
      unfold addUser
      rw [if_neg hu, if_neg hg, if_neg hdr]
    rw [heq]
    have hadj : ∀ x, adj (net.graph ++ [(u, [])]) x = adj net.graph x := by
      intro x
      cases hx : lookupA net.graph x with
      | some l => unfold adj; rw [lookupA_append_some hx, hx]
      | none =>
        unfold adj
        rw [lookupA_append_none hx, hx]
        by_cases hxu : u = x
        · simp [lookupA, hxu]
        · simp [lookupA, hxu]
    refine ⟨?_, ?_, ?_, ?_, h.refKeysNodup, ?_, ?_⟩
    · exact h.usersNodup.append (List.nodup_singleton u)
        (by simpa [List.disjoint_singleton] using hu)
    · simp [h.keysEq]
    · rw [h.drEq]
    · intro e he
      rcases List.mem_append.mp he with hold | hnew
      · exact h.adjNodup e hold
      · obtain rfl : e = (u, []) := by simpa using hnew
        exact List.nodup_nil
    · intro x y
      rw [hadj x]
      exact h.refIff x y
    · intro n b hb hr
      rw [hadj n] at hb
      exact h.acyclic n b hb (reaches_congr hadj hr)

lemma wf_commit {net : RNet} (h : WF net) {r c : String}
    (hr : r ∈ net.users) (hc : c ∈ net.users) (hrc : ¬ r = c)
    (hnone : lookupA net.referrerOf c = none)
    (hnc : ¬ Reaches net.graph c r) :
    WF { users := net.users
         graph := updateA net.graph r (fun l => l ++ [c])
         directReferrals := updateA net.directReferrals r
           (fun l => if c ∈ l then l else l ++ [c])
         referrerOf := setA net.referrerOf c r } := by
  have hsome : (lookupA net.graph r).isSome := by
    rw [lookupA_isSome_iff, h.keysEq]; exact hr
  have hcadj : c ∉ adj net.graph r := by
    intro hmem
    have := (h.refIff r c).mp hmem
    rw [hnone] at this
    exact Option.noConfusion this
  have hadj := adj_update hsome c
  have hset : setA net.referrerOf c r = net.referrerOf ++ [(c, r)] :=
    setA_of_none hnone r
  have hckeys : c ∉ net.referrerOf.map Prod.fst :=
    lookupA_eq_none_iff.mp hnone
  refine ⟨h.usersNodup, ?_, ?_, ?_, ?_, ?_, ?_⟩
  · rw [updateA_keys]; exact h.keysEq
  · rw [h.drEq]
    apply updateA_congr
    intro v hv
    have hv' : adj net.graph r = v := by simp [adj, hv]
    rw [if_neg (hv' ▸ hcadj)]
  · intro e he
    rcases updateA_mem he with hold | ⟨v, hv, rfl⟩
    · exact h.adjNodup e hold
    · have hv' : adj net.graph r = v := by simp [adj, hv]
      have hvnd : v.Nodup := h.adjNodup (r, v) (lookupA_mem hv)
      refine hvnd.append (List.nodup_singleton c) ?_
      simpa [List.disjoint_singleton] using hv' ▸ hcadj
  · rw [hset, List.map_append]
    exact h.refKeysNodup.append (List.nodup_singleton c)
      (by simpa [List.disjoint_singleton] using hckeys)
  · intro x y
    rw [hadj x, hset]
    by_cases hyc : y = c
    · subst hyc
      rw [lookupA_append_none hnone]
      by_cases hxr : x = r
      · subst hxr
        simp [lookupA]
      · rw [if_neg hxr]
        simp only [lookupA, if_pos rfl]
        constructor
        · intro hmem
          have := (h.refIff x y).mp hmem
          rw [hnone] at this
          exact Option.noConfusion this
        · intro hrx
          exact absurd (Option.some.inj hrx).symm hxr
    · rw [lookupA_append_single_ne _ hyc]
      by_cases hxr : x = r
      · subst hxr
        rw [if_pos rfl]
        rw [List.mem_append]
        simp only [List.mem_singleton]
        constructor
        · intro hmem
          rcases hmem with hmem | hmem
          · exact (h.refIff x y).mp hmem
          · exact absurd hmem hyc
        · intro hl
          exact Or.inl ((h.refIff x y).mpr hl)
      · rw [if_neg hxr]
        exact h.refIff x y
  · intro n b hb hreach
    rw [hadj n] at hb
    by_cases hn : n = r
    · rw [if_pos hn] at hb
      rcases List.mem_append.mp hb with hold | hbc
      · rcases reaches_update hsome hnc hreach with hgb | ⟨_, hcn⟩
        · exact h.acyclic r b hold (hn ▸ hgb)
        · exact hnc (hn ▸ hcn)
      · obtain rfl : b = c := by simpa using hbc
        rcases reaches_update hsome hnc hreach with hgb | ⟨hgb, _⟩
        · exact hnc (hn ▸ hgb)
        · exact hnc hgb
    · rw [if_neg hn] at hb
      rcases reaches_update hsome hnc hreach with hgb | ⟨hbr, hcn⟩
      · exact h.acyclic n b hb hgb
      · exact hnc (reaches_trans
          (reaches_trans hcn (Reaches.step hb (Reaches.refl b))) hbr)

lemma wf_applyOp {net : RNet} (h : WF net) (op : NetOp) :
    WF (applyOp net op) := by
  cases op with
  | user u => exact wf_addUser h u
  | referral r c =>
    have hred : applyOp net (.referral r c) =
        match addReferral net r c with
        | .ok (_, net') => net'
        | .error _ => net := rfl
    rw [hred]
    unfold addReferral
    by_cases h0 : r ∉ net.users
    · rw [if_pos h0]; exact h
    · rw [if_neg h0]
      by_cases h0c : c ∉ net.users
      · rw [if_pos h0c]; exact h
      · rw [if_neg h0c]
        by_cases h1 : r = c
        · rw [if_pos h1]; exact h
        · rw [if_neg h1]
          by_cases h2 : (lookupA net.referrerOf c).isSome
          · rw [if_pos h2]; exact h
          · rw [if_neg h2]
            by_cases h3 : wouldCreateCycle net r c = true
            · rw [if_pos h3]; exact h
            · rw [if_neg h3]
              exact wf_commit h (not_not.mp h0) (not_not.mp h0c) h1
                (Option.not_isSome_iff_eq_none.mp h2)
                (fun hh => h3 ((wouldCreateCycle_iff net r c).mpr hh))

lemma wf_buildNet (ops : List NetOp) : WF (buildNet ops) := by
  suffices h : ∀ net, WF net → WF (ops.foldl applyOp net) from
    h emptyNet wf_empty
  induction ops with
  | nil => intro net h; exact h
  | cons op rest ih => intro net h; exact ih _ (wf_applyOp h op)

lemma sum_count_le_one {g : List (String × List String)} {c r : String}
    (hnd : (g.map Prod.fst).Nodup)
    (hcnt : ∀ e ∈ g, (Prod.snd e).count c ≤ 1)
    (honly : ∀ e ∈ g, c ∈ Prod.snd e → Prod.fst e = r) :
    (g.map (fun e => e.2.count c)).sum ≤ 1 := by
  induction g with
  | nil => simp
  | cons e rest ih =>
    simp only [List.map_cons, List.sum_cons]
    rw [List.map_cons, List.nodup_cons] at hnd
    by_cases hce : c ∈ e.2
    · have hrest : ∀ e' ∈ rest, (Prod.snd e').count c = 0 := by
        intro e' he'
        rw [List.count_eq_zero]
        intro hc'
        have h1 : Prod.fst e = r := honly e (List.mem_cons_self e rest) hce
        have h2 : Prod.fst e' = r :=
          honly e' (List.mem_cons_of_mem e he') hc'
        exact hnd.1 (List.mem_map.mpr ⟨e', he', by rw [h1, h2]⟩)
      have hzero : (rest.map (fun e => e.2.count c)).sum = 0 := by
        rw [List.sum_eq_zero]
        intro x hx
        obtain ⟨e', he', rfl⟩ := List.mem_map.mp hx
        exact hrest e' he'
      rw [hzero]
      have := hcnt e (List.mem_cons_self e rest)
      omega
    · rw [List.count_eq_zero.mpr hce]
      simp only [Nat.zero_add]
      exact ih hnd.2 (fun e' he' => hcnt e' (List.mem_cons_of_mem e he'))
        (fun e' he' hc => honly e' (List.mem_cons_of_mem e he') hc)

lemma wf_inDegree {net : RNet} (h : WF net) (c : String) :
    inDegree net.graph c ≤ 1 := by
  unfold inDegree
  have hnd : (net.graph.map Prod.fst).Nodup := by
    rw [h.keysEq]; exact h.usersNodup
  cases href : lookupA net.referrerOf c with
  | none =>
    have hz : (net.graph.map (fun e => e.2.count c)).sum = 0 := by
      rw [List.sum_eq_zero]
      intro x hx
      obtain ⟨e, he, rfl⟩ := List.mem_map.mp hx
      rw [List.count_eq_zero]
      intro hce
      have hl : lookupA net.graph e.1 = some e.2 :=
        lookupA_of_mem_nodup hnd he
      have hmem : c ∈ adj net.graph e.1 := by simpa [adj, hl] using hce
      have h2 := (h.refIff e.1 c).mp hmem
      rw [href] at h2
      exact Option.noConfusion h2
    omega
  | some r =>
    apply sum_count_le_one hnd
    · intro e he
      exact List.nodup_iff_count_le_one.mp (h.adjNodup e he) c
    · intro e he hce
      have hl : lookupA net.graph e.1 = some e.2 :=
        lookupA_of_mem_nodup hnd he
      have hmem : c ∈ adj net.graph e.1 := by simpa [adj, hl] using hce
      have h2 := (h.refIff e.1 c).mp hmem
      rw [href] at h2
      exact (Option.some.inj h2).symm

/-- Claim C2: every state built by a sequence of `addUser`/`addReferral`
calls from the empty network is acyclic (no node reachable from itself
through a referral edge), every candidate has in-degree at most one, and
the reverse map holds at most one referrer per candidate. -/
theorem buildNet_invariants (ops : List NetOp) :
    Acyclic (buildNet ops).graph ∧
    (∀ c, inDegree (buildNet ops).graph c ≤ 1) ∧
    (∀ c, ((buildNet ops).referrerOf.map Prod.fst).count c ≤ 1) := by
  have h := wf_buildNet ops
  exact ⟨h.acyclic, fun c => wf_inDegree h c,
    fun c => List.nodup_iff_count_le_one.mp h.refKeysNodup c⟩

/-- The inner neighbour loop shared by `totalReferrals` and
`getReachSet`: mark and enqueue unvisited neighbours, counting them. -/
def enqueueNew : List String → List String → List String → Nat →
    List String × List String × Nat
  | [], vis, q, cnt => (vis, q, cnt)
  | n :: rest, vis, q, cnt =>
    if n ∈ vis then enqueueNew rest vis q cnt
    else enqueueNew rest (vis ++ [n]) (q ++ [n]) (cnt + 1)

/-- The breadth-first traversal of `totalReferrals`/`getReachSet`, with
fuel bounding the number of dequeue steps; returns the visited set and
the discovery count. -/
def bfsCount (g : List (String × List String)) :
    Nat → List String → List String → Nat → List String × Nat
  | 0, _, vis, cnt => (vis, cnt)
  | _ + 1, [], vis, cnt => (vis, cnt)
  | f + 1, cur :: q, vis, cnt =>
    match enqueueNew (adj g cur) vis q cnt with
    | (vis', q', cnt') => bfsCount g f q' vis' cnt'

lemma bfsCount_cons (g : List (String × List String)) (f : Nat)
    (cur : String) (q vis : List String) (cnt : Nat) :
    bfsCount g (f + 1) (cur :: q) vis cnt =
      match enqueueNew (adj g cur) vis q cnt with
      | (vis', q', cnt') => bfsCount g f q' vis' cnt' := rfl

/-- Fuel sufficient for the BFS loops. -/
def bfsFuel (g : List (String × List String)) : Nat :=
  (allNodes g).dedup.length + 1

/-- The count computed by `totalReferrals(userId)` (its BFS body). -/
def trCore (net : RNet) (u : String) : Nat :=
  (bfsCount net.graph (bfsFuel net.graph) [u] [u] 0).2

/-- `totalReferrals(userId)`. -/
def totalReferrals (net : RNet) (u : String) : Except String Nat :=
  if u ∉ net.users then
    .error s!"User {u} does not exist in the network"
  else .ok (trCore net u)

/-- `getReachSet(userId)`: all nodes reachable from `userId`, itself
included. -/
def getReachSet (net : RNet) (u : String) : List String :=
  (bfsCount net.graph (bfsFuel net.graph) [u] [u] 0).1

lemma enqueueNew_nil (vis q : List String) (cnt : Nat) :
    enqueueNew [] vis q cnt = (vis, q, cnt) := rfl

lemma enqueueNew_cons (n : String) (rest vis q : List String) (cnt : Nat) :
    enqueueNew (n :: rest) vis q cnt =
      if n ∈ vis then enqueueNew rest vis q cnt
      else enqueueNew rest (vis ++ [n]) (q ++ [n]) (cnt + 1) := rfl

lemma enqueueNew_spec (ns : List String) :
    ∀ vis q cnt, ∃ δ,
      enqueueNew ns vis q cnt = (vis ++ δ, q ++ δ, cnt + δ.length) ∧
      δ ⊆ ns ∧ (∀ x ∈ δ, x ∉ vis) ∧ δ.Nodup ∧
      (∀ n ∈ ns, n ∈ vis ++ δ) := by
  induction ns with
  | nil =>
    intro vis q cnt
    refine ⟨[], ?_, ?_, ?_, List.nodup_nil, ?_⟩
    · rw [enqueueNew_nil]; simp
    · simp
    · simp
    · simp
  | cons n rest ih =>
    intro vis q cnt
    by_cases hn : n ∈ vis
    · obtain ⟨δ, heq, hsub, hnot, hnd, hcov⟩ := ih vis q cnt
      refine ⟨δ, ?_, fun x hx => List.mem_cons_of_mem n (hsub hx),
        hnot, hnd, ?_⟩
      · rw [enqueueNew_cons, if_pos hn, heq]
      · intro m hm
        rcases List.mem_cons.mp hm with rfl | hm'
        · exact List.mem_append.mpr (Or.inl hn)
        · exact hcov m hm'
    · obtain ⟨δ', heq, hsub, hnot, hnd, hcov⟩ := ih (vis ++ [n]) (q ++ [n])
        (cnt + 1)
      refine ⟨n :: δ', ?_, ?_, ?_, ?_, ?_⟩
      · rw [enqueueNew_cons, if_neg hn, heq]
        simp only [List.append_assoc, List.singleton_append,
          List.length_cons, Prod.mk.injEq, eq_self_iff_true, true_and]
        omega
      · intro x hx
        rcases List.mem_cons.mp hx with hxe | hx'
        · rw [hxe]; exact List.mem_cons_self n rest
        · exact List.mem_cons_of_mem n (hsub hx')
      · intro x hx
        rcases List.mem_cons.mp hx with hxe | hx'
        · rw [hxe]; exact hn
        · intro hxv
          exact hnot x hx' (List.mem_append.mpr (Or.inl hxv))
      · rw [List.nodup_cons]
        refine ⟨?_, hnd⟩
        intro hmem
        exact hnot n hmem (by simp)
      · intro m hm
        rcases List.mem_cons.mp hm with hme | hm'
        · rw [hme]; simp
        · have := hcov m hm'
          simpa only [List.append_assoc, List.singleton_append] using this

lemma mfree_congr {g : List (String × List String)} (vis vis' : List String)
    (h : ∀ x, x ∈ vis ↔ x ∈ vis') : mfree g vis = mfree g vis' := by
  unfold mfree
  congr 1
  apply List.filter_congr
  intro x _
  exact decide_eq_decide.mpr (not_congr (h x))

lemma mfree_append_le {g : List (String × List String)} {δ : List String} :
    ∀ vis, (∀ x ∈ δ, x ∈ allNodes g) → (∀ x ∈ δ, x ∉ vis) → δ.Nodup →
    mfree g (vis ++ δ) + δ.length ≤ mfree g vis := by
  induction δ with
  | nil => intro vis _ _ _; simp
  | cons d δ' ih =>
    intro vis hall hnot hnd
    rw [List.nodup_cons] at hnd
    have h1 : mfree g ((vis ++ [d]) ++ δ') + δ'.length ≤
        mfree g (vis ++ [d]) := by
      apply ih
      · intro x hx; exact hall x (List.mem_cons_of_mem d hx)
      · intro x hx hxm
        rcases List.mem_append.mp hxm with hxv | hxd
        · exact hnot x (List.mem_cons_of_mem d hx) hxv
        · have hxd' : x = d := by simpa using hxd
          exact hnd.1 (hxd' ▸ hx)
      · exact hnd.2
    have h2 : mfree g (vis ++ [d]) < mfree g vis := by
      rw [mfree_congr (vis ++ [d]) (d :: vis) (by intro x; simp [or_comm])]
      exact mfree_cons_lt (hall d (List.mem_cons_self d δ'))
        (hnot d (List.mem_cons_self d δ'))
    have h3 : mfree g (vis ++ d :: δ') = mfree g ((vis ++ [d]) ++ δ') := by
      apply mfree_congr
      intro x
      simp only [List.append_assoc, List.singleton_append]
    rw [h3]
    simp only [List.length_cons]
    omega

/-- Full functional specification of the BFS: starting from a visited
set that covers the queue, it returns the closure under successors of
the nodes reachable from the already-visited set, counting every newly
discovered node once. -/
lemma bfsCount_spec (g : List (String × List String)) (u : String) :
    ∀ fuel q vis cnt,
    q.length + mfree g vis ≤ fuel →
    (∀ x ∈ q, x ∈ vis) →
    vis.Nodup →
    (∀ v ∈ vis, Reaches g u v) →
    (∀ v ∈ vis, v ∈ q ∨ ∀ b ∈ adj g v, b ∈ vis) →
    ∃ vis' cnt', bfsCount g fuel q vis cnt = (vis', cnt') ∧
      cnt' + vis.length = cnt + vis'.length ∧
      vis ⊆ vis' ∧ vis'.Nodup ∧
      (∀ v ∈ vis', Reaches g u v) ∧
      (∀ v ∈ vis', ∀ b ∈ adj g v, b ∈ vis') := by
  intro fuel
  induction fuel with
  | zero =>
    intro q vis cnt hfuel hqv hnd hreach hpart
    have hq : q = [] := by
      cases q with
      | nil => rfl
      | cons a q' => simp at hfuel
    subst hq
    refine ⟨vis, cnt, rfl, by omega, fun _ hx => hx, hnd, hreach, ?_⟩
    intro v hv b hb
    rcases hpart v hv with hin | hcl
    · simp at hin
    · exact hcl b hb
  | succ f ih =>
    intro q vis cnt hfuel hqv hnd hreach hpart
    cases q with
    | nil =>
      refine ⟨vis, cnt, rfl, by omega, fun _ hx => hx, hnd, hreach, ?_⟩
      intro v hv b hb
      rcases hpart v hv with hin | hcl
      · simp at hin
      · exact hcl b hb
    | cons cur q' =>
      obtain ⟨δ, heq, hsub, hnot, hδnd, hcov⟩ :=
        enqueueNew_spec (adj g cur) vis q' cnt
      have hstep : bfsCount g (f + 1) (cur :: q') vis cnt =
          bfsCount g f (q' ++ δ) (vis ++ δ) (cnt + δ.length) := by
        rw [bfsCount_cons, heq]
      have hcur : cur ∈ vis := hqv cur (List.mem_cons_self cur q')
      have hδall : ∀ x ∈ δ, x ∈ allNodes g :=
        fun x hx => adj_sub_allNodes (hsub hx)
      have hfuel' : (q' ++ δ).length + mfree g (vis ++ δ) ≤ f := by
        have h1 := mfree_append_le vis hδall hnot hδnd
        simp only [List.length_append]
        simp only [List.length_cons] at hfuel
        omega
      have hqv' : ∀ x ∈ q' ++ δ, x ∈ vis ++ δ := by
        intro x hx
        rcases List.mem_append.mp hx with hx' | hx'
        · exact List.mem_append.mpr (Or.inl
            (hqv x (List.mem_cons_of_mem cur hx')))
        · exact List.mem_append.mpr (Or.inr hx')
      have hnd' : (vis ++ δ).Nodup :=
        hnd.append hδnd (fun a ha hb => hnot a hb ha)
      have hreach' : ∀ v ∈ vis ++ δ, Reaches g u v := by
        intro v hv
        rcases List.mem_append.mp hv with hv' | hv'
        · exact hreach v hv'
        · exact reaches_trans (hreach cur hcur)
            (Reaches.step (hsub hv') (Reaches.refl v))
      have hpart' : ∀ v ∈ vis ++ δ, v ∈ q' ++ δ ∨
          ∀ b ∈ adj g v, b ∈ vis ++ δ := by
        intro v hv
        by_cases hvc : v = cur
        · subst hvc
          exact Or.inr (fun b hb => hcov b hb)
        · rcases List.mem_append.mp hv with hv' | hv'
          · rcases hpart v hv' with hin | hcl
            · rcases List.mem_cons.mp hin with h' | h'
              · exact absurd h' hvc
              · exact Or.inl (List.mem_append.mpr (Or.inl h'))
            · exact Or.inr (fun b hb =>
                List.mem_append.mpr (Or.inl (hcl b hb)))
          · exact Or.inl (List.mem_append.mpr (Or.inr hv'))
      obtain ⟨vis', cnt', hres, hcnt, hsub', hnd'', hreach'', hcl''⟩ :=
        ih (q' ++ δ) (vis ++ δ) (cnt + δ.length) hfuel' hqv' hnd'
          hreach' hpart'
      refine ⟨vis', cnt', by rw [hstep, hres], ?_,
        fun x hx => hsub' (List.mem_append.mpr (Or.inl hx)), hnd'',
        hreach'', hcl''⟩
      simp only [List.length_append] at hcnt
      omega

/-- The reach set computed by the BFS, as a finite set. -/
def reachFinset (net : RNet) (u : String) : Finset String :=
  (getReachSet net u).toFinset

lemma bfs_start_spec (net : RNet) (u : String) :
    ∃ vis' cnt',
      bfsCount net.graph (bfsFuel net.graph) [u] [u] 0 = (vis', cnt') ∧
      cnt' + 1 = vis'.length ∧ u ∈ vis' ∧ vis'.Nodup ∧
      (∀ v, v ∈ vis' ↔ Reaches net.graph u v) := by
  have hfuel : ([u] : List String).length + mfree net.graph [u] ≤
      bfsFuel net.graph := by
    have h1 : mfree net.graph [u] ≤ mfree net.graph [] :=
      mfree_anti (by simp)
    have h2 : mfree net.graph [] = (allNodes net.graph).dedup.length := by
      unfold mfree; simp
    unfold bfsFuel
    simp only [List.length_cons, List.length_nil]
    omega
  obtain ⟨vis', cnt', hres, hcnt, hsub, hnd, hreach, hcl⟩ :=
    bfsCount_spec net.graph u (bfsFuel net.graph) [u] [u] 0 hfuel
      (by simp) (List.nodup_singleton u)
      (by
        intro v hv
        have hv' : v = u := by simpa using hv
        rw [hv']
        exact Reaches.refl u)
      (by
        intro v hv
        have hv' : v = u := by simpa using hv
        rw [hv']
        exact Or.inl (by simp))
  have hu : u ∈ vis' := hsub (by simp)
  refine ⟨vis', cnt', hres, by simpa using hcnt, hu, hnd, ?_⟩
  intro v
  constructor
  · exact hreach v
  · intro hr
    exact reaches_closed hcl hr hu

lemma mem_reachFinset (net : RNet) (u v : String) :
    v ∈ reachFinset net u ↔ Reaches net.graph u v := by
  obtain ⟨vis', cnt', hres, _, _, _, hiff⟩ := bfs_start_spec net u
  unfold reachFinset getReachSet
  rw [hres]
  simp only [List.mem_toFinset]
  exact hiff v

lemma card_reachFinset (net : RNet) (u : String) :
    (reachFinset net u).card = trCore net u + 1 := by
  obtain ⟨vis', cnt', hres, hcnt, hu, hnd, _⟩ := bfs_start_spec net u
  unfold reachFinset getReachSet trCore
  rw [hres]
  simp only [List.toFinset_card_of_nodup hnd]
  omega

/-- `trCore` counts the users strictly reachable from `u`. -/
lemma trCore_ncard (net : RNet) (u : String) :
    trCore net u = Set.ncard {v | Reaches net.graph u v ∧ v ≠ u} := by
  have hset : {v | Reaches net.graph u v ∧ v ≠ u} =
      ↑((reachFinset net u).erase u) := by
    ext v
    simp only [Set.mem_setOf_eq, Finset.coe_erase, Set.mem_diff,
      Finset.mem_coe, mem_reachFinset, Set.mem_singleton_iff]
  rw [hset, Set.ncard_coe_Finset]
  rw [Finset.card_erase_of_mem ((mem_reachFinset net u u).mpr
    (Reaches.refl u))]
  rw [card_reachFinset]
  omega

lemma reaches_last_edge {g : List (String × List String)} {a v : String}
    (h : Reaches g a v) :
    a = v ∨ ∃ p, v ∈ adj g p ∧ Reaches g a p := by
  induction h with
  | refl a => exact Or.inl rfl
  | @step a b c' hedge _ ih =>
    rcases ih with hbe | ⟨p, hp, hap⟩
    · exact Or.inr ⟨a, hbe ▸ hedge, Reaches.refl a⟩
    · exact Or.inr ⟨p, hp, Reaches.step hedge hap⟩

lemma parent_unique {net : RNet} (h : WF net) {v x x' : String}
    (h1 : v ∈ adj net.graph x) (h2 : v ∈ adj net.graph x') : x = x' := by
  have e1 := (h.refIff x v).mp h1
  have e2 := (h.refIff x' v).mp h2
  rw [e1] at e2
  exact Option.some.inj e2

lemma ancestors_ordered {net : RNet} (h : WF net) {x y v : String}
    (hx : Reaches net.graph x v) (hy : Reaches net.graph y v) :
    Reaches net.graph x y ∨ Reaches net.graph y x := by
  induction hx generalizing y with
  | refl a => exact Or.inr hy
  | @step a b c' hedge _ ih =>
    rcases ih hy with hby | hyb
    · exact Or.inl (Reaches.step hedge hby)
    · rcases reaches_last_edge hyb with hye | ⟨p, hp, hyp⟩
      · exact Or.inl (Reaches.step hedge (hye ▸ Reaches.refl y))
      · have hpa : p = a := parent_unique h hp hedge
        exact Or.inr (hpa ▸ hyp)

lemma reach_between_children {net : RNet} (h : WF net) {u c1 c2 : String}
    (h1 : c1 ∈ adj net.graph u) (h2 : c2 ∈ adj net.graph u)
    (hr : Reaches net.graph c1 c2) : c1 = c2 := by
  rcases reaches_last_edge hr with he | ⟨p, hp, h1p⟩
  · exact he
  · have hpu : p = u := parent_unique h hp h2
    exact absurd (hpu ▸ h1p) (h.acyclic u c1 h1)

lemma children_disjoint {net : RNet} (h : WF net) {u c1 c2 v : String}
    (h1 : c1 ∈ adj net.graph u) (h2 : c2 ∈ adj net.graph u) (hne : c1 ≠ c2)
    (hv1 : Reaches net.graph c1 v) (hv2 : Reaches net.graph c2 v) :
    False := by
  rcases ancestors_ordered h hv1 hv2 with h12 | h21
  · exact hne (reach_between_children h h1 h2 h12)
  · exact hne (reach_between_children h h2 h1 h21).symm

lemma adj_nodup {net : RNet} (h : WF net) (u : String) :
    (adj net.graph u).Nodup := by
  unfold adj
  cases hlu : lookupA net.graph u with
  | none => simp
  | some l =>
    simpa using h.adjNodup (u, l) (lookupA_mem hlu)

lemma sum_map_succ (l : List String) (f : String → Nat) :
    (l.map (fun c => f c + 1)).sum = (l.map f).sum + l.length := by
  induction l with
  | nil => simp
  | cons a l ih => simp [ih]; omega

/-- Claim C6: for every registered user `u` of a constructed network,
`totalReferrals` returns the number of distinct users strictly reachable
from `u` (excluding `u` itself), and — the referral structure being a
forest — that count equals the number of `u`'s direct referrals plus the
sum of their own counts. -/
theorem totalReferrals_spec (ops : List NetOp) (u : String)
    (hu : u ∈ (buildNet ops).users) :
    totalReferrals (buildNet ops) u = .ok (trCore (buildNet ops) u) ∧
    trCore (buildNet ops) u =
      Set.ncard {v | Reaches (buildNet ops).graph u v ∧ v ≠ u} ∧
    getDirectReferrals (buildNet ops) u =
      .ok (adj (buildNet ops).graph u) ∧
    trCore (buildNet ops) u = (adj (buildNet ops).graph u).length +
      ((adj (buildNet ops).graph u).map (trCore (buildNet ops))).sum := by
  have h := wf_buildNet ops
  set net := buildNet ops with hnet
  refine ⟨?_, trCore_ncard net u, ?_, ?_⟩
  · unfold totalReferrals
    rw [if_neg (not_not_intro hu)]
  · unfold getDirectReferrals
    rw [if_neg (not_not_intro hu), h.drEq]
    rfl
  · set ch := adj net.graph u with hch
    have hchnd : ch.Nodup := adj_nodup h u
    have hkey : reachFinset net u =
        insert u (ch.toFinset.biUnion (fun c => reachFinset net c)) := by
      ext v
      simp only [mem_reachFinset, Finset.mem_insert, Finset.mem_biUnion,
        List.mem_toFinset]
      constructor
      · intro hr
        cases hr with
        | refl => exact Or.inl rfl
        | step hedge hrest => exact Or.inr ⟨_, hedge, hrest⟩
      · intro hv
        rcases hv with rfl | ⟨c, hc, hr⟩
        · exact Reaches.refl v
        · exact reaches_trans (Reaches.step hc (Reaches.refl c)) hr
    have hnotin : u ∉ ch.toFinset.biUnion (fun c => reachFinset net c) := by
      intro hmem
      obtain ⟨c, hc, hr⟩ := Finset.mem_biUnion.mp hmem
      exact h.acyclic u c (List.mem_toFinset.mp hc)
        ((mem_reachFinset net c u).mp hr)
    have hdisj : ∀ c1 ∈ ch.toFinset, ∀ c2 ∈ ch.toFinset, c1 ≠ c2 →
        Disjoint (reachFinset net c1) (reachFinset net c2) := by
      intro c1 hc1 c2 hc2 hne
      rw [Finset.disjoint_left]
      intro v hv1 hv2
      exact children_disjoint h (List.mem_toFinset.mp hc1)
        (List.mem_toFinset.mp hc2) hne
        ((mem_reachFinset net c1 v).mp hv1)
        ((mem_reachFinset net c2 v).mp hv2)
    have hcard : (reachFinset net u).card =
        (ch.toFinset.biUnion (fun c => reachFinset net c)).card + 1 := by
      rw [hkey, Finset.card_insert_of_not_mem hnotin]
    have hbi : (ch.toFinset.biUnion (fun c => reachFinset net c)).card =
        ch.toFinset.sum (fun c => (reachFinset net c).card) :=
      Finset.card_biUnion hdisj
    have hsum1 : ch.toFinset.sum (fun c => (reachFinset net c).card) =
        ch.toFinset.sum (fun c => trCore net c + 1) := by
      apply Finset.sum_congr rfl
      intro c _
      exact card_reachFinset net c
    have hsum2 : ch.toFinset.sum (fun c => trCore net c + 1) =
        (ch.map (fun c => trCore net c + 1)).sum := by
      rw [List.sum_toFinset _ hchnd]
    have hsum3 : (ch.map (fun c => trCore net c + 1)).sum =
        (ch.map (trCore net)).sum + ch.length :=
      sum_map_succ ch (trCore net)
    have hcru := card_reachFinset net u
    omega

/-- Witness: on the chain `A → B → C` the reach of `A` is counted. -/
theorem totalReferrals_spec_witness :
    ("A" : String) ∈ (buildNet [.user "A", .user "B", .user "C",
      .referral "A" "B", .referral "B" "C"]).users ∧
    totalReferrals (buildNet [.user "A", .user "B", .user "C",
      .referral "A" "B", .referral "B" "C"]) "A" =
      .ok (trCore (buildNet [.user "A", .user "B", .user "C",
        .referral "A" "B", .referral "B" "C"]) "A") :=
  ⟨by decide,
    (totalReferrals_spec [.user "A", .user "B", .user "C",
      .referral "A" "B", .referral "B" "C"] "A" (by decide)).1⟩

/-- The best-candidate scan inside `uniqueReachExpansion`: one pass over
the users, keeping the first strict maximiser of new coverage. -/
def findBest (users selected covered : List String)
    (reachOf : String → List String) : Option String × Nat :=
  users.foldl
    (fun best user =>
      if user ∈ selected then best
      else
        let newCov :=
          (((reachOf user).filter (fun x => x ∉ covered)).dedup).length
        if best.2 < newCov then (some user, newCov) else best)
    (none, 0)

/-- `covered.add(user)` for every user of the chosen reach set. -/
def coverUnion (covered reach : List String) : List String :=
  reach.foldl (fun cov x => if x ∈ cov then cov else cov ++ [x]) covered

/-- The greedy selection loop of `uniqueReachExpansion` (fuel bounds the
number of iterations; one more than the user count always suffices). -/
def ureLoop (net : RNet) (reachOf : String → List String) :
    Nat → List String → List String → List String
  | 0, selected, _ => selected
  | f + 1, selected, covered =>
    if selected.length < net.users.length then
      match findBest net.users selected covered reachOf with
      | (none, _) => selected ++ net.users.filter (fun u => u ∉ selected)
      | (some bu, bc) =>
        if bc = 0 then
          selected ++ net.users.filter (fun u => u ∉ selected)
        else
          ureLoop net reachOf f (selected ++ [bu])
            (coverUnion covered (reachOf bu))
    else selected

/-- The precomputed reach sets, one per user. -/
def reachSetsOf (net : RNet) : List (String × List String) :=
  net.users.map (fun u => (u, getReachSet net u))

/-- `uniqueReachExpansion()`. -/
def uniqueReachExpansion (net : RNet) : List String :=
  if net.users.length = 0 then []
  else
    ureLoop net (fun u => (lookupA (reachSetsOf net) u).getD [])
      (net.users.length + 1) [] []

lemma ureLoop_succ (net : RNet) (reachOf : String → List String) (f : Nat)
    (selected covered : List String) :
    ureLoop net reachOf (f + 1) selected covered =
      if selected.length < net.users.length then
        match findBest net.users selected covered reachOf with
        | (none, _) => selected ++ net.users.filter (fun u => u ∉ selected)
        | (some bu, bc) =>
          if bc = 0 then
            selected ++ net.users.filter (fun u => u ∉ selected)
          else
            ureLoop net reachOf f (selected ++ [bu])
              (coverUnion covered (reachOf bu))
      else selected := rfl

lemma foldl_best_mem (selected covered : List String)
    (reachOf : String → List String) :
    ∀ (l : List String) (init : Option String × Nat) (bu : String),
      (l.foldl
        (fun best user =>
          if user ∈ selected then best
          else
            let newCov :=
              (((reachOf user).filter (fun x => x ∉ covered)).dedup).length
            if best.2 < newCov then (some user, newCov) else best)
        init).1 = some bu →
      init.1 = some bu ∨ (bu ∈ l ∧ bu ∉ selected) := by
  intro l
  induction l with
  | nil => intro init bu h; exact Or.inl h
  | cons a l ih =>
    intro init bu h
    rw [List.foldl_cons] at h
    rcases ih _ bu h with hinit | ⟨hmem, hsel⟩
    · by_cases ha : a ∈ selected
      · rw [if_pos ha] at hinit
        exact Or.inl hinit
      · rw [if_neg ha] at hinit
        by_cases hlt : init.2 <
            (((reachOf a).filter (fun x => x ∉ covered)).dedup).length
        · simp only [if_pos hlt] at hinit
          have : a = bu := by simpa using hinit
          exact Or.inr ⟨this ▸ List.mem_cons_self a l, this ▸ ha⟩
        · simp only [if_neg hlt] at hinit
          exact Or.inl hinit
    · exact Or.inr ⟨List.mem_cons_of_mem a hmem, hsel⟩

lemma findBest_some {users selected covered : List String}
    {reachOf : String → List String} {bu : String} {bc : Nat}
    (h : findBest users selected covered reachOf = (some bu, bc)) :
    bu ∈ users ∧ bu ∉ selected := by
  have h1 : (findBest users selected covered reachOf).1 = some bu := by
    rw [h]
  rcases foldl_best_mem selected covered reachOf users (none, 0) bu h1
    with hinit | hmem
  · exact absurd hinit (by simp)
  · exact hmem

lemma perm_of_nodup_sub_of_le {selected users : List String}
    (hund : users.Nodup) (hsnd : selected.Nodup) (hsub : selected ⊆ users)
    (hlen : users.length ≤ selected.length) : selected.Perm users := by
  have hfsub : selected.toFinset ⊆ users.toFinset := by
    intro x hx
    exact List.mem_toFinset.mpr (hsub (List.mem_toFinset.mp hx))
  have hcard : users.toFinset.card ≤ selected.toFinset.card := by
    rw [List.toFinset_card_of_nodup hund, List.toFinset_card_of_nodup hsnd]
    exact hlen
  have heq := Finset.eq_of_subset_of_card_le hfsub hcard
  rw [List.perm_ext_iff_of_nodup hsnd hund]
  intro a
  rw [← List.mem_toFinset, ← @List.mem_toFinset _ _ users _, heq]

lemma remaining_perm {users selected : List String}
    (hund : users.Nodup) (hsnd : selected.Nodup)
    (hsub : selected ⊆ users) :
    (selected ++ users.filter (fun u => u ∉ selected)).Perm users := by
  have hnd : (selected ++ users.filter (fun u => u ∉ selected)).Nodup := by
    refine hsnd.append (hund.filter _) ?_
    intro a ha hb
    have := List.of_mem_filter hb
    simp only [decide_eq_true_eq] at this
    exact this ha
  rw [List.perm_ext_iff_of_nodup hnd hund]
  intro a
  simp only [List.mem_append, List.mem_filter, decide_eq_true_eq]
  constructor
  · intro hmem
    rcases hmem with hs | ⟨hu, _⟩
    · exact hsub hs
    · exact hu
  · intro hu
    by_cases hs : a ∈ selected
    · exact Or.inl hs
    · exact Or.inr ⟨hu, hs⟩

lemma ureLoop_perm (net : RNet) (reachOf : String → List String)
    (hund : net.users.Nodup) :
    ∀ fuel selected covered,
      selected.Nodup → selected ⊆ net.users →
      net.users.length + 1 ≤ fuel + selected.length →
      (ureLoop net reachOf fuel selected covered).Perm net.users := by
  intro fuel
  induction fuel with
  | zero =>
    intro selected covered hnd hsub hlen
    exfalso
    have hfsub : selected.toFinset ⊆ net.users.toFinset := by
      intro x hx
      exact List.mem_toFinset.mpr (hsub (List.mem_toFinset.mp hx))
    have h1 := Finset.card_le_card hfsub
    rw [List.toFinset_card_of_nodup hnd,
      List.toFinset_card_of_nodup hund] at h1
    omega
  | succ f ih =>
    intro selected covered hnd hsub hlen
    rw [ureLoop_succ]
    by_cases hfull : selected.length < net.users.length
    · rw [if_pos hfull]
      cases hfb : findBest net.users selected covered reachOf with
      | mk o bc =>
        cases o with
        | none => exact remaining_perm hund hnd hsub
        | some bu =>
          show (if bc = 0 then
              selected ++ net.users.filter (fun u => u ∉ selected)
            else ureLoop net reachOf f (selected ++ [bu])
              (coverUnion covered (reachOf bu))).Perm net.users
          by_cases hbc : bc = 0
          · rw [if_pos hbc]
            exact remaining_perm hund hnd hsub
          · rw [if_neg hbc]
            obtain ⟨hbuU, hbuS⟩ := findBest_some hfb
            apply ih
            · exact hnd.append (List.nodup_singleton bu)
                (by simpa [List.disjoint_singleton] using hbuS)
            · intro x hx
              rcases List.mem_append.mp hx with hx' | hx'
              · exact hsub hx'
              · have : x = bu := by simpa using hx'
                exact this ▸ hbuU
            · simp only [List.length_append, List.length_cons,
                List.length_nil]
              omega
    · rw [if_neg hfull]
      exact perm_of_nodup_sub_of_le hund hnd hsub (by omega)

/-- Claim C7: `uniqueReachExpansion` on any constructed network returns
every registered user exactly once — a permutation of the user set, of
length exactly the number of users (so the empty network yields the
empty sequence and a one-user network the singleton). -/
theorem uniqueReachExpansion_perm (ops : List NetOp) :
    (uniqueReachExpansion (buildNet ops)).Perm (buildNet ops).users ∧
    (uniqueReachExpansion (buildNet ops)).length =
      (buildNet ops).users.length := by
  have h := wf_buildNet ops
  have hperm : (uniqueReachExpansion (buildNet ops)).Perm
      (buildNet ops).users := by
    unfold uniqueReachExpansion
    by_cases hz : (buildNet ops).users.length = 0
    · rw [if_pos hz]
      have hempty : (buildNet ops).users = [] :=
        List.length_eq_zero.mp hz
      rw [hempty]
    · rw [if_neg hz]
      apply ureLoop_perm _ _ h.usersNodup
      · exact List.nodup_nil
      · intro x hx; simp at hx
      · simp
  exact ⟨hperm, hperm.length_eq⟩

/-- The inner neighbour loop of `bfsShortestPaths`: record a distance
for, and enqueue, every neighbour not seen before. -/
def spEnqueue (dcur : Nat) :
    List String → List (String × Nat) → List String →
    List (String × Nat) × List String
  | [], dist, q => (dist, q)
  | n :: rest, dist, q =>
    if (lookupA dist n).isSome then spEnqueue dcur rest dist q
    else spEnqueue dcur rest (dist ++ [(n, dcur + 1)]) (q ++ [n])

/-- The BFS of `bfsShortestPaths`, with fuel bounding dequeue steps. -/
def bfsSP (g : List (String × List String)) :
    Nat → List String → List (String × Nat) → List (String × Nat)
  | 0, _, dist => dist
  | _ + 1, [], dist => dist
  | f + 1, cur :: q, dist =>
    match spEnqueue ((lookupA dist cur).getD 0) (adj g cur) dist q with
    | (dist', q') => bfsSP g f q' dist'

/-- `bfsShortestPaths(source)`: the BFS distance map from `source`. -/
def bfsShortestPaths (net : RNet) (source : String) :
    List (String × Nat) :=
  bfsSP net.graph (bfsFuel net.graph) [source] [(source, 0)]

/-- The precomputed all-sources distance maps of `flowCentrality`. -/
def spOf (net : RNet) : List (String × List (String × Nat)) :=
  net.users.map (fun s => (s, bfsShortestPaths net s))

/-- `shortestPaths.get(s)`. -/
def getSP (net : RNet) (s : String) : List (String × Nat) :=
  (lookupA (spOf net) s).getD []

/-- `centrality.set(v, centrality.get(v) + 1)`. -/
def incA (m : List (String × Nat)) (k : String) : List (String × Nat) :=
  updateA m k (fun n => n + 1)

/-- Insert into a list sorted by descending score, keeping insertion
order among equal scores (JavaScript `sort` is stable). -/
def insertDesc (x : String × Nat) :
    List (String × Nat) → List (String × Nat)
  | [] => [x]
  | y :: ys => if y.2 ≤ x.2 then x :: y :: ys else y :: insertDesc x ys

/-- Stable sort by descending score. -/
def sortDesc : List (String × Nat) → List (String × Nat)
  | [] => []
  | x :: xs => insertDesc x (sortDesc xs)

/-- The innermost loop body of `flowCentrality`: for fixed `(s, t)` with
distance `dst`, bump `v`'s score when `v` lies on a shortest path. -/
def fcInner (net : RNet) (s t : String) (dst : Nat) :
    List (String × Nat) → String → List (String × Nat) :=
  fun cent v =>
    if v = s ∨ v = t then cent
    else
      match lookupA (getSP net s) v, lookupA (getSP net v) t with
      | some dsv, some dvt =>
        if dsv + dvt = dst then incA cent v else cent
      | _, _ => cent

/-- The middle loop body of `flowCentrality`: for fixed `s`, process one
target `t` (skipping `s = t` and unreachable targets). -/
def fcT (net : RNet) (s : String) :
    List (String × Nat) → String → List (String × Nat) :=
  fun cent t =>
    if s = t then cent
    else
      match lookupA (getSP net s) t with
      | none => cent
      | some dst => net.users.foldl (fcInner net s t dst) cent

/-- The outer loop body of `flowCentrality`: process one source `s`. -/
def fcS (net : RNet) :
    List (String × Nat) → String → List (String × Nat) :=
  fun cent s => net.users.foldl (fcT net s) cent

/-- `flowCentrality()`: score accumulation over all ordered pairs,
then a descending sort. -/
def flowCentrality (net : RNet) : List (String × Nat) :=
  if net.users.length ≤ 1 then []
  else
    sortDesc
      (net.users.foldl (fcS net) (net.users.map (fun u => (u, 0))))

/-- The ordered pairs `(s, t)` scanned by `flowCentrality`. -/
def pairList (net : RNet) : List (String × String) :=
  net.users.flatMap (fun s => net.users.map (fun t => (s, t)))

/-- The claim predicate: `v` lies on a shortest `s → t` path — the
endpoints and `v` pairwise distinct, the three BFS distances all finite,
and `d(s,v) + d(v,t) = d(s,t)`. -/
def onShortestB (net : RNet) (v s t : String) : Bool :=
  decide (s ≠ t) && decide (v ≠ s) && decide (v ≠ t) &&
  match lookupA (bfsShortestPaths net s) t,
      lookupA (bfsShortestPaths net s) v,
      lookupA (bfsShortestPaths net v) t with
  | some dst, some dsv, some dvt => decide (dsv + dvt = dst)
  | _, _, _ => false

/-- The Boolean guard of the innermost `flowCentrality` loop. -/
def fcCond (net : RNet) (s t : String) (dst : Nat) (v : String) : Bool :=
  !decide (v = s ∨ v = t) &&
  match lookupA (getSP net s) v, lookupA (getSP net v) t with
  | some dsv, some dvt => decide (dsv + dvt = dst)
  | _, _ => false

/-- Whether the pair `(s, t)` bumps `x`'s score. -/
def fcPairCond (net : RNet) (x s t : String) : Bool :=
  !decide (s = t) &&
  match lookupA (getSP net s) t with
  | none => false
  | some dst => fcCond net s t dst x

lemma fcInner_eq (net : RNet) (s t : String) (dst : Nat) :
    fcInner net s t dst =
      fun cent v => if fcCond net s t dst v then incA cent v else cent := by
  funext cent v
  unfold fcInner fcCond
  by_cases h1 : v = s ∨ v = t
  · simp [h1]
  · simp only [if_neg h1, decide_eq_true_eq, h1, decide_False,
      Bool.not_false, Bool.true_and]
    cases lookupA (getSP net s) v with
    | none => simp
    | some dsv =>
      cases lookupA (getSP net v) t with
      | none => simp
      | some dvt =>
        by_cases h2 : dsv + dvt = dst
        · simp [h2]
        · simp [h2]

lemma lookupA_map_self {β : Type} (f : String → β) :
    ∀ (l : List String) (s : String), s ∈ l →
    lookupA (l.map (fun u => (u, f u))) s = some (f s) := by
  intro l
  induction l with
  | nil => intro s hs; simp at hs
  | cons a rest ih =>
    intro s hs
    by_cases ha : a = s
    · simp [lookupA, ha]
    · rcases List.mem_cons.mp hs with hs' | hs'
      · exact absurd hs'.symm ha
      · simpa [lookupA, ha] using ih s hs'

lemma foldl_inc_lookup (φ : String → Bool) :
    ∀ (us : List String), us.Nodup →
    ∀ (cent : List (String × Nat)) (x : String),
    lookupA (us.foldl (fun c v => if φ v then incA c v else c) cent) x =
      if x ∈ us ∧ φ x then (lookupA cent x).map (fun n => n + 1)
      else lookupA cent x := by
  intro us
  induction us with
  | nil => intro _ cent x; simp
  | cons a us ih =>
    intro hnd cent x
    rw [List.nodup_cons] at hnd
    rw [List.foldl_cons, ih hnd.2]
    by_cases hxa : x = a
    · subst hxa
      have hxus : x ∉ us := hnd.1
      rw [if_neg (fun hc => hxus hc.1)]
      by_cases hφ : φ x
      · rw [if_pos hφ, if_pos ⟨List.mem_cons_self x us, hφ⟩]
        exact lookupA_updateA_self cent x _
      · rw [if_neg hφ, if_neg (fun hc => hφ hc.2)]
    · have hc1 : lookupA (if φ a then incA cent a else cent) x =
          lookupA cent x := by
        by_cases hφ : φ a
        · rw [if_pos hφ]; exact lookupA_updateA_ne cent hxa _
        · rw [if_neg hφ]
      rw [hc1]
      by_cases hcond : x ∈ us ∧ φ x
      · rw [if_pos hcond,
          if_pos ⟨List.mem_cons_of_mem a hcond.1, hcond.2⟩]
      · rw [if_neg hcond, if_neg ?ha]
        case ha =>
          rintro ⟨hmem, hφx⟩
          rcases List.mem_cons.mp hmem with h' | h'
          · exact hxa h'
          · exact hcond ⟨h', hφx⟩

lemma foldl_inc_keys (φ : String → Bool) :
    ∀ (us : List String) (cent : List (String × Nat)),
    (us.foldl (fun c v => if φ v then incA c v else c) cent).map Prod.fst =
      cent.map Prod.fst := by
  intro us
  induction us with
  | nil => intro cent; rfl
  | cons a us ih =>
    intro cent
    rw [List.foldl_cons, ih]
    by_cases hφ : φ a
    · rw [if_pos hφ]; exact updateA_keys cent a _
    · rw [if_neg hφ]

lemma fcT_eq_self {net : RNet} {s t : String}
    (cent : List (String × Nat)) (h1 : s = t) :
    fcT net s cent t = cent := by
  unfold fcT; rw [if_pos h1]

lemma fcT_none {net : RNet} {s t : String} (cent : List (String × Nat))
    (h1 : ¬ s = t) (hd : lookupA (getSP net s) t = none) :
    fcT net s cent t = cent := by
  unfold fcT; rw [if_neg h1, hd]

lemma fcT_some {net : RNet} {s t : String} {dst : Nat}
    (cent : List (String × Nat)) (h1 : ¬ s = t)
    (hd : lookupA (getSP net s) t = some dst) :
    fcT net s cent t = net.users.foldl (fcInner net s t dst) cent := by
  unfold fcT; rw [if_neg h1, hd]

lemma fcPairCond_self {net : RNet} {x s t : String} (h1 : s = t) :
    fcPairCond net x s t = false := by
  unfold fcPairCond
  simp [h1]

lemma fcPairCond_none {net : RNet} {x s t : String}
    (hd : lookupA (getSP net s) t = none) :
    fcPairCond net x s t = false := by
  unfold fcPairCond
  rw [hd]
  simp

lemma fcPairCond_some {net : RNet} {x s t : String} {dst : Nat}
    (h1 : ¬ s = t) (hd : lookupA (getSP net s) t = some dst) :
    fcPairCond net x s t = fcCond net s t dst x := by
  unfold fcPairCond
  rw [hd]
  simp [h1]

lemma fcT_lookup (net : RNet) (hund : net.users.Nodup) (s t x : String)
    (hx : x ∈ net.users) (cent : List (String × Nat)) :
    lookupA (fcT net s cent t) x =
      if fcPairCond net x s t then (lookupA cent x).map (fun n => n + 1)
      else lookupA cent x := by
  by_cases h1 : s = t
  · rw [fcT_eq_self cent h1, fcPairCond_self h1]
    simp
  · cases hd : lookupA (getSP net s) t with
    | none =>
      rw [fcT_none cent h1 hd, fcPairCond_none hd]
      simp
    | some dst =>
      rw [fcT_some cent h1 hd, fcPairCond_some h1 hd, fcInner_eq,
        foldl_inc_lookup _ net.users hund cent x]
      by_cases hc : fcCond net s t dst x
      · rw [if_pos ⟨hx, hc⟩, if_pos hc]
      · rw [if_neg (fun hh => hc hh.2), if_neg hc]

lemma fcT_keys (net : RNet) (s : String) :
    ∀ (ts : List String) (cent : List (String × Nat)),
    (ts.foldl (fcT net s) cent).map Prod.fst = cent.map Prod.fst := by
  intro ts
  induction ts with
  | nil => intro cent; rfl
  | cons t ts ih =>
    intro cent
    rw [List.foldl_cons, ih]
    by_cases h1 : s = t
    · rw [fcT_eq_self cent h1]
    · cases hd : lookupA (getSP net s) t with
      | none => rw [fcT_none cent h1 hd]
      | some dst => rw [fcT_some cent h1 hd, fcInner_eq, foldl_inc_keys]

lemma fcTfold_lookup (net : RNet) (hund : net.users.Nodup) (s x : String)
    (hx : x ∈ net.users) :
    ∀ (ts : List String) (cent : List (String × Nat)),
    lookupA (ts.foldl (fcT net s) cent) x =
      (lookupA cent x).map
        (fun n => n + ts.countP (fun t => fcPairCond net x s t)) := by
  intro ts
  induction ts with
  | nil =>
    intro cent
    simp only [List.foldl_nil, List.countP_nil]
    cases h : lookupA cent x <;> simp
  | cons t ts ih =>
    intro cent
    rw [List.foldl_cons, ih, fcT_lookup net hund s t x hx cent]
    by_cases hc : fcPairCond net x s t
    · have hcnt : List.countP (fun u => fcPairCond net x s u) (t :: ts) =
          List.countP (fun u => fcPairCond net x s u) ts + 1 := by
        rw [List.countP_cons]
        simp [hc]
      rw [if_pos hc, hcnt]
      cases h : lookupA cent x with
      | none => simp
      | some n =>
        simp only [Option.map_some', Option.some.injEq]
        omega
    · have hcnt : List.countP (fun u => fcPairCond net x s u) (t :: ts) =
          List.countP (fun u => fcPairCond net x s u) ts := by
        rw [List.countP_cons]
        simp [hc]
      rw [if_neg hc, hcnt]

lemma fcSfold_lookup (net : RNet) (hund : net.users.Nodup) (x : String)
    (hx : x ∈ net.users) :
    ∀ (ss : List String) (cent : List (String × Nat)),
    lookupA (ss.foldl (fcS net) cent) x =
      (lookupA cent x).map
        (fun n => n +
          (ss.flatMap (fun s => net.users.map (fun t => (s, t)))).countP
            (fun st => fcPairCond net x st.1 st.2)) := by
  intro ss
  induction ss with
  | nil =>
    intro cent
    simp only [List.foldl_nil, List.flatMap_nil, List.countP_nil]
    cases h : lookupA cent x <;> simp
  | cons s ss ih =>
    intro cent
    rw [List.foldl_cons, ih]
    rw [show fcS net cent s = net.users.foldl (fcT net s) cent from rfl]
    rw [fcTfold_lookup net hund s x hx net.users cent]
    rw [List.flatMap_cons, List.countP_append, List.countP_map]
    have hcomp : List.countP ((fun st => fcPairCond net x st.1 st.2) ∘
        (fun t => (s, t))) net.users =
        net.users.countP (fun t => fcPairCond net x s t) := rfl
    cases h : lookupA cent x with
    | none => simp
    | some n =>
      simp only [Option.map_some', Option.some.injEq]
      omega

lemma fcS_keys (net : RNet) :
    ∀ (ss : List String) (cent : List (String × Nat)),
    (ss.foldl (fcS net) cent).map Prod.fst = cent.map Prod.fst := by
  intro ss
  induction ss with
  | nil => intro cent; rfl
  | cons s ss ih =>
    intro cent
    rw [List.foldl_cons, ih]
    unfold fcS
    exact fcT_keys net s net.users cent

lemma insertDesc_perm (x : String × Nat) (l : List (String × Nat)) :
    (insertDesc x l).Perm (x :: l) := by
  induction l with
  | nil => rfl
  | cons y ys ih =>
    unfold insertDesc
    by_cases h : y.2 ≤ x.2
    · rw [if_pos h]
    · rw [if_neg h]
      exact (ih.cons y).trans (List.Perm.swap x y ys)

lemma sortDesc_perm (l : List (String × Nat)) : (sortDesc l).Perm l := by
  induction l with
  | nil => rfl
  | cons x xs ih =>
    exact (insertDesc_perm x (sortDesc xs)).trans (ih.cons x)

lemma insertDesc_sorted {l : List (String × Nat)} (x : String × Nat)
    (h : l.Pairwise (fun a b => b.2 ≤ a.2)) :
    (insertDesc x l).Pairwise (fun a b => b.2 ≤ a.2) := by
  induction l with
  | nil => simp [insertDesc]
  | cons y ys ih =>
    rw [List.pairwise_cons] at h
    unfold insertDesc
    by_cases hc : y.2 ≤ x.2
    · rw [if_pos hc]
      rw [List.pairwise_cons]
      refine ⟨?_, List.pairwise_cons.mpr h⟩
      intro b hb
      rcases List.mem_cons.mp hb with rfl | hb'
      · exact hc
      · exact le_trans (h.1 b hb') hc
    · rw [if_neg hc]
      rw [List.pairwise_cons]
      refine ⟨?_, ih h.2⟩
      intro b hb
      have hb' := (insertDesc_perm x ys).mem_iff.mp hb
      rcases List.mem_cons.mp hb' with hbx | h'
      · rw [hbx]; omega
      · exact h.1 b h'

lemma sortDesc_sorted (l : List (String × Nat)) :
    (sortDesc l).Pairwise (fun a b => b.2 ≤ a.2) := by
  induction l with
  | nil => simp [sortDesc]
  | cons x xs ih => exact insertDesc_sorted x ih

lemma getSP_eq {net : RNet} {s : String} (hs : s ∈ net.users) :
    getSP net s = bfsShortestPaths net s := by
  unfold getSP spOf
  rw [lookupA_map_self _ net.users s hs]
  rfl

lemma fcPairCond_eq_onShortestB {net : RNet} {x s t : String}
    (hs : s ∈ net.users) (hv : x ∈ net.users) :
    fcPairCond net x s t = onShortestB net x s t := by
  unfold fcPairCond fcCond onShortestB
  rw [getSP_eq hs, getSP_eq hv]
  by_cases h1 : s = t
  · simp [h1]
  · simp only [h1, decide_False, Bool.not_false, Bool.true_and, ne_eq,
      not_false_eq_true, decide_True]
    cases lookupA (bfsShortestPaths net s) t with
    | none => simp
    | some dst =>
      by_cases h2 : x = s ∨ x = t
      · rcases h2 with h2 | h2 <;> simp [h2]
      · push_neg at h2
        simp only [h2.1, h2.2, or_self, decide_False, Bool.not_false,
          Bool.true_and, ne_eq, not_false_eq_true, decide_True]
        cases lookupA (bfsShortestPaths net s) x with
        | none => simp
        | some dsv =>
          cases lookupA (bfsShortestPaths net x) t with
          | none => simp
          | some dvt => simp

/-- Claim C8: each entry of `flowCentrality` carries a score equal to
the number of ordered pairs `(s, t)` — `s`, `t`, `v` pairwise distinct —
whose three BFS distances are finite and split additively through `v`;
the output is sorted by descending score; and on the chain
`A → B → C` the node `B` scores at least as much as `A` and as `C`. -/
theorem flowCentrality_spec :
    (∀ (ops : List NetOp) (v : String) (score : Nat),
      (v, score) ∈ flowCentrality (buildNet ops) →
        score = (pairList (buildNet ops)).countP
          (fun st => onShortestB (buildNet ops) v st.1 st.2)) ∧
    (∀ ops : List NetOp,
      (flowCentrality (buildNet ops)).Pairwise (fun a b => b.2 ≤ a.2)) ∧
    (∃ sB sA sC,
      lookupA (flowCentrality (buildNet [.user "A", .user "B", .user "C",
        .referral "A" "B", .referral "B" "C"])) "B" = some sB ∧
      lookupA (flowCentrality (buildNet [.user "A", .user "B", .user "C",
        .referral "A" "B", .referral "B" "C"])) "A" = some sA ∧
      lookupA (flowCentrality (buildNet [.user "A", .user "B", .user "C",
        .referral "A" "B", .referral "B" "C"])) "C" = some sC ∧
      sA ≤ sB ∧ sC ≤ sB) := by
  refine ⟨?_, ?_, ?_⟩
  · intro ops v score hmem
    have hund := (wf_buildNet ops).usersNodup
    set net := buildNet ops with hnet
    unfold flowCentrality at hmem
    by_cases hle : net.users.length ≤ 1
    · rw [if_pos hle] at hmem
      simp at hmem
    · rw [if_neg hle] at hmem
      set cent := net.users.foldl (fcS net)
        (net.users.map (fun u => (u, 0))) with hcent
      have hmem' : (v, score) ∈ cent :=
        (sortDesc_perm cent).subset hmem
      have hkeys : cent.map Prod.fst = net.users := by
        have hfst : (Prod.fst ∘ fun u : String => (u, (0 : Nat))) = id :=
          rfl
        rw [hcent, fcS_keys, List.map_map, hfst, List.map_id]
      have hvu : v ∈ net.users := by
        rw [← hkeys]
        exact List.mem_map.mpr ⟨(v, score), hmem', rfl⟩
      have hknd : (cent.map Prod.fst).Nodup := by rw [hkeys]; exact hund
      have hlook : lookupA cent v = some score :=
        lookupA_of_mem_nodup hknd hmem'
      have hval := fcSfold_lookup net hund v hvu net.users
        (net.users.map (fun u => (u, 0)))
      rw [lookupA_map_self (fun _ => 0) net.users v hvu] at hval
      rw [hcent] at hlook
      rw [hval] at hlook
      simp only [Option.map_some', Option.some.injEq] at hlook
      rw [← hlook]
      unfold pairList
      rw [Nat.zero_add]
      apply List.countP_congr
      intro st hst
      have hmem'' := hst
      unfold pairList at hmem''
      simp only [List.mem_flatMap, List.mem_map] at hmem''
      obtain ⟨s, hs, t, ht, hpair⟩ := hmem''
      rw [← hpair]
      have heq := @fcPairCond_eq_onShortestB net _ _ t hs hvu
      rw [show ((s, t).1) = s from rfl, show ((s, t).2) = t from rfl, heq]
  · intro ops
    unfold flowCentrality
    by_cases hle : (buildNet ops).users.length ≤ 1
    · rw [if_pos hle]; exact List.Pairwise.nil
    · rw [if_neg hle]; exact sortDesc_sorted _
  · exact ⟨1, 0, 0, by decide, by decide, by decide, by omega, by omega⟩

/-- Witness: scores on the chain `A → B → C`. -/
theorem flowCentrality_spec_witness :
    ("B", 1) ∈ flowCentrality (buildNet [.user "A", .user "B", .user "C",
      .referral "A" "B", .referral "B" "C"]) ∧
    1 = (pairList (buildNet [.user "A", .user "B", .user "C",
        .referral "A" "B", .referral "B" "C"])).countP
      (fun st => onShortestB (buildNet [.user "A", .user "B", .user "C",
        .referral "A" "B", .referral "B" "C"]) "B" st.1 st.2) :=
  ⟨by decide,
    flowCentrality_spec.1 [.user "A", .user "B", .user "C",
      .referral "A" "B", .referral "B" "C"] "B" 1 (by decide)⟩

end ReferralNet

namespace Simulation

/-- `this.initialActiveReferrers`. -/
def initialActiveReferrers : Nat := 100

/-- `this.referralCapacity`. -/
def referralCapacity : ℚ := 10

/-- `MAX_REFERRERS`: hard cap on the referrer-slot population. -/
def MAX_REFERRERS : Nat := 5000

/-- `MAX_DAYS`: hard cap on the simulated duration. -/
def MAX_DAYS : Int := 100

/-- One day's scan over the referrer slots: every slot below capacity
contributes `p` expected referrals and accumulates `p`. Returns the
day's total and the updated slots. -/
def dayStep (p : ℚ) (counts : List ℚ) : ℚ × List ℚ :=
  counts.foldr
    (fun c acc =>
      if c < referralCapacity then (acc.1 + p, (c + p) :: acc.2)
      else (acc.1, c :: acc.2))
    (0, [])

/-- The day loop of `simulate` (structural in the remaining days):
appends `floor(daily)` fresh slots up to the population cap, records
the cumulative floor, and stops early at the cap. -/
def simLoop (p : ℚ) : Nat → List ℚ → ℚ → List Int
  | 0, _, _ => []
  | d + 1, counts, total =>
    let step := dayStep p counts
    let daily := step.1
    let counts₁ := step.2
    let newReferrerCount := (Int.floor daily).toNat
    let added := min newReferrerCount (MAX_REFERRERS - counts₁.length)
    let counts₂ := counts₁ ++ List.replicate added 0
    let total' := total + daily
    if MAX_REFERRERS ≤ counts₂.length then [Int.floor total']
    else Int.floor total' :: simLoop p d counts₂ total'

/-- `simulate(p, days)`: duration capped before validation, then the
day loop from one hundred fresh slots. -/
def simulate (p : ℚ) (days : Int) : Except String (List Int) :=
  let days := if days > MAX_DAYS then MAX_DAYS else days
  if p < 0 ∨ p > 1 then
    .error "Probability p must be between 0 and 1"
  else if days < 0 then
    .error "Days must be non-negative"
  else
    .ok (simLoop p days.toNat (List.replicate initialActiveReferrers 0) 0)

/-- `result[result.length - 1] >= t` — `false` on the empty list, as the
JavaScript comparison with `undefined` is. -/
def lastGe (l : List Int) (t : Int) : Bool :=
  match l.getLast? with
  | none => false
  | some x => decide (t ≤ x)

/-- `result[result.length - 1] < t` — `false` on the empty list. -/
def lastLt (l : List Int) (t : Int) : Bool :=
  match l.getLast? with
  | none => false
  | some x => decide (x < t)

/-- The binary-search loop of `daysToTarget` (fuel bounds iterations;
the gap shrinks every round, so one more than the initial gap is always
enough). -/
def dtLoop (p : ℚ) (t : Int) : Nat → Nat → Nat → Except String Nat
  | 0, left, _ => .ok left
  | fuel + 1, left, right =>
    if left < right then
      let mid := (left + right) / 2
      match simulate p (mid : Int) with
      | .error e => .error e
      | .ok result =>
        if lastGe result t then dtLoop p t fuel left mid
        else dtLoop p t fuel (mid + 1) right
    else .ok left

/-- `daysToTarget(p, targetTotal)`; `none` models the `Infinity`
sentinel. -/
def daysToTarget (p : ℚ) (targetTotal : Int) :
    Except String (Option Nat) :=
  if p < 0 ∨ p > 1 then
    .error "Probability p must be between 0 and 1"
  else if targetTotal < 0 then
    .error "Target total must be non-negative"
  else if targetTotal = 0 then .ok (some 0)
  else if p = 0 then .ok none
  else
    let right := (max 1 targetTotal).toNat
    match dtLoop p targetTotal (right + 1) 0 right with
    | .error e => .error e
    | .ok n => .ok (some n)

/-- The binary-search loop of `minBonusForTarget` (fuel bounds the
halvings; the gap halves every round, so logarithmically many always
suffice). -/
def mbLoop (days targetHires : Int) (adoptionProb : ℚ → ℚ) (eps : ℚ) :
    Nat → ℚ → ℚ → Except String (ℚ × ℚ)
  | 0, minB, maxB => .ok (minB, maxB)
  | fuel + 1, minB, maxB =>
    if eps < maxB - minB then
      let midBonus := (minB + maxB) / 2
      let prob := adoptionProb midBonus
      if prob > 0 then
        match simulate prob days with
        | .error e => .error e
        | .ok result =>
          if lastGe result targetHires then
            mbLoop days targetHires adoptionProb eps fuel minB midBonus
          else
            mbLoop days targetHires adoptionProb eps fuel midBonus maxB
      else mbLoop days targetHires adoptionProb eps fuel midBonus maxB
    else .ok (minB, maxB)

/-- Halvings after which the bracket `[0, 10000]` is within `eps`. -/
def mbFuel (eps : ℚ) : Nat :=
  Nat.log 2 (Int.toNat ⌈(10000 : ℚ) / eps⌉) + 1

/-- The tail of `minBonusForTarget`: run the bracket search, round the
upper bound up to a multiple of `eps`, and defensively re-verify. -/
def mbFinish (days targetHires : Int) (adoptionProb : ℚ → ℚ) (eps : ℚ) :
    Except String (Option ℚ) :=
  match mbLoop days targetHires adoptionProb eps (mbFuel eps) 0 10000 with
  | .error e => .error e
  | .ok (_, maxB) =>
    let finalBonus : ℚ := ((⌈maxB / eps⌉ : ℤ) : ℚ) * eps
    let finalProb := adoptionProb finalBonus
    if finalProb > 0 then
      match simulate finalProb days with
      | .error e => .error e
      | .ok finalResult =>
        if lastGe finalResult targetHires then .ok (some finalBonus)
        else .ok none
    else .ok none

/-- `minBonusForTarget(days, targetHires, adoptionProb, eps = 10)`;
`none` models the `null` sentinel. -/
def minBonusForTarget (days targetHires : Int) (adoptionProb : ℚ → ℚ)
    (eps : ℚ := 10) : Except String (Option ℚ) :=
  if days < 0 then .error "Days must be non-negative"
  else if targetHires < 0 then .error "Target hires must be non-negative"
  else if eps ≤ 0 then .error "Precision eps must be positive"
  else if targetHires = 0 then .ok (some 0)
  else
    let maxProb := adoptionProb 10000
    if maxProb > 0 then
      match simulate maxProb days with
      | .error e => .error e
      | .ok maxResult =>
        if lastLt maxResult targetHires then .ok none
        else mbFinish days targetHires adoptionProb eps
    else mbFinish days targetHires adoptionProb eps

lemma simulate_eq (p : ℚ) (days : Int) :
    simulate p days =
      if p < 0 ∨ p > 1 then
        .error "Probability p must be between 0 and 1"
      else if (if days > MAX_DAYS then MAX_DAYS else days) < 0 then
        .error "Days must be non-negative"
      else
        .ok (simLoop p (if days > MAX_DAYS then MAX_DAYS else days).toNat
          (List.replicate initialActiveReferrers 0) 0) := rfl

lemma simLoop_succ (p : ℚ) (d : Nat) (counts : List ℚ) (total : ℚ) :
    simLoop p (d + 1) counts total =
      if MAX_REFERRERS ≤
          ((dayStep p counts).2 ++
            List.replicate (min (Int.floor (dayStep p counts).1).toNat
              (MAX_REFERRERS - (dayStep p counts).2.length)) 0).length then
        [Int.floor (total + (dayStep p counts).1)]
      else
        Int.floor (total + (dayStep p counts).1) ::
          simLoop p d
            ((dayStep p counts).2 ++
              List.replicate (min (Int.floor (dayStep p counts).1).toNat
                (MAX_REFERRERS - (dayStep p counts).2.length)) 0)
            (total + (dayStep p counts).1) := rfl

lemma dayStep_nil (p : ℚ) : dayStep p [] = (0, []) := rfl

lemma dayStep_cons (p c : ℚ) (l : List ℚ) :
    dayStep p (c :: l) =
      if c < referralCapacity then
        ((dayStep p l).1 + p, (c + p) :: (dayStep p l).2)
      else ((dayStep p l).1, c :: (dayStep p l).2) := rfl

lemma dayStep_fst_zero : ∀ counts : List ℚ, (dayStep 0 counts).1 = 0 := by
  intro counts
  induction counts with
  | nil => rfl
  | cons c l ih =>
    rw [dayStep_cons]
    by_cases h : c < referralCapacity
    · rw [if_pos h]; simpa using ih
    · rw [if_neg h]; exact ih

lemma dayStep_fst_nonneg {p : ℚ} (hp : 0 ≤ p) :
    ∀ counts : List ℚ, 0 ≤ (dayStep p counts).1 := by
  intro counts
  induction counts with
  | nil => exact le_refl 0
  | cons c l ih =>
    rw [dayStep_cons]
    by_cases h : c < referralCapacity
    · rw [if_pos h]
      have : (0 : ℚ) ≤ (dayStep p l).1 + p := by linarith
      simpa using this
    · rw [if_neg h]; exact ih

lemma simLoop_zero_total :
    ∀ (d : Nat) (counts : List ℚ) (total : ℚ),
      ∀ e ∈ simLoop 0 d counts total, e = Int.floor total := by
  intro d
  induction d with
  | zero => intro counts total e he; simp [simLoop] at he
  | succ d ih =>
    intro counts total e he
    rw [simLoop_succ, dayStep_fst_zero, add_zero] at he
    by_cases hbr : MAX_REFERRERS ≤
        ((dayStep 0 counts).2 ++
          List.replicate (min (Int.floor (0:ℚ)).toNat
            (MAX_REFERRERS - (dayStep 0 counts).2.length)) 0).length
    · rw [if_pos hbr] at he
      simpa using he
    · rw [if_neg hbr] at he
      rcases List.mem_cons.mp he with rfl | he'
      · rfl
      · exact ih _ total e he'

lemma simLoop_chain {p : ℚ} (hp : 0 ≤ p) :
    ∀ (d : Nat) (counts : List ℚ) (total : ℚ),
      (simLoop p d counts total).Chain' (· ≤ ·) ∧
      ∀ e ∈ simLoop p d counts total, Int.floor total ≤ e := by
  intro d
  induction d with
  | zero =>
    intro counts total
    exact ⟨List.chain'_nil, by intro e he; simp [simLoop] at he⟩
  | succ d ih =>
    intro counts total
    have hd : 0 ≤ (dayStep p counts).1 := dayStep_fst_nonneg hp counts
    have hf : Int.floor total ≤ Int.floor (total + (dayStep p counts).1) :=
      Int.floor_le_floor (by linarith)
    rw [simLoop_succ]
    by_cases hbr : MAX_REFERRERS ≤
        ((dayStep p counts).2 ++
          List.replicate (min (Int.floor (dayStep p counts).1).toNat
            (MAX_REFERRERS - (dayStep p counts).2.length)) 0).length
    · rw [if_pos hbr]
      refine ⟨List.chain'_singleton _, ?_⟩
      intro e he
      have : e = Int.floor (total + (dayStep p counts).1) := by
        simpa using he
      omega
    · rw [if_neg hbr]
      obtain ⟨hch, hlb⟩ := ih
        ((dayStep p counts).2 ++
          List.replicate (min (Int.floor (dayStep p counts).1).toNat
            (MAX_REFERRERS - (dayStep p counts).2.length)) 0)
        (total + (dayStep p counts).1)
      refine ⟨List.chain'_cons'.mpr ⟨?_, hch⟩, ?_⟩
      · intro y hy
        exact hlb y (List.mem_of_mem_head? hy)
      · intro e he
        rcases List.mem_cons.mp he with rfl | he'
        · exact hf
        · exact le_trans hf (hlb e he')

lemma simLoop_length (p : ℚ) :
    ∀ (d : Nat) (counts : List ℚ) (total : ℚ),
      (simLoop p d counts total).length ≤ d := by
  intro d
  induction d with
  | zero => intro counts total; simp [simLoop]
  | succ d ih =>
    intro counts total
    rw [simLoop_succ]
    by_cases hbr : MAX_REFERRERS ≤
        ((dayStep p counts).2 ++
          List.replicate (min (Int.floor (dayStep p counts).1).toNat
            (MAX_REFERRERS - (dayStep p counts).2.length)) 0).length
    · rw [if_pos hbr]; simp
    · rw [if_neg hbr]
      simpa using Nat.succ_le_succ (ih _ _)

lemma simulate_ok {p : ℚ} (hp0 : 0 ≤ p) (hp1 : p ≤ 1) {d : Int}
    (hd : 0 ≤ d) :
    simulate p d = .ok (simLoop p
      (if d > MAX_DAYS then MAX_DAYS else d).toNat
      (List.replicate initialActiveReferrers 0) 0) := by
  rw [simulate_eq]
  rw [if_neg (by push_neg; constructor <;> linarith)]
  rw [if_neg ?hd]
  case hd =>
    by_cases h : d > MAX_DAYS
    · rw [if_pos h]; unfold MAX_DAYS; omega
    · rw [if_neg h]; omega

/-- Claim C3: `simulate(0, n)` is all zeros for every non-negative
duration, `simulate(p, 0)` is the empty sequence for every valid `p`,
and for every valid `p` the returned cumulative sequence is
non-decreasing. -/
theorem simulate_boundary :
    (∀ n : Int, 0 ≤ n →
      ∃ l, simulate 0 n = .ok l ∧ ∀ x ∈ l, x = 0) ∧
    (∀ p : ℚ, 0 ≤ p → p ≤ 1 → simulate p 0 = .ok []) ∧
    (∀ (p : ℚ) (n : Int) (l : List Int), 0 ≤ p → p ≤ 1 →
      simulate p n = .ok l → l.Chain' (· ≤ ·)) := by
  refine ⟨?_, ?_, ?_⟩
  · intro n hn
    refine ⟨_, simulate_ok (le_refl 0) (by norm_num) hn, ?_⟩
    intro x hx
    have := simLoop_zero_total _ _ _ x hx
    simpa using this
  · intro p hp0 hp1
    rw [simulate_ok hp0 hp1 (le_refl 0)]
    rfl
  · intro p n l hp0 hp1 hok
    by_cases hn : 0 ≤ n
    · rw [simulate_ok hp0 hp1 hn] at hok
      obtain rfl : _ = l := Except.ok.inj hok
      exact (simLoop_chain hp0 _ _ _).1
    · rw [simulate_eq, if_neg (by push_neg; constructor <;> linarith),
        if_pos ?hneg] at hok
      case hneg =>
        by_cases h : n > MAX_DAYS
        · unfold MAX_DAYS at h ⊢; omega
        · rw [if_neg h]; omega
      exact absurd hok (by simp)

/-- Witness: `simulate(0, 5)` is all zeros and `simulate(1, 0)` and the
monotonicity hold on concrete runs. -/
theorem simulate_boundary_witness :
    ((0 : Int) ≤ 5 ∧ ∃ l, simulate 0 5 = .ok l ∧ ∀ x ∈ l, x = 0) ∧
    ((0 : ℚ) ≤ 1 ∧ (1 : ℚ) ≤ 1 ∧ simulate 1 0 = .ok []) :=
  ⟨⟨by decide, simulate_boundary.1 5 (by decide)⟩,
    ⟨by decide, by decide, simulate_boundary.2.1 1 (by decide) (by decide)⟩⟩

lemma dtLoop_succ (p : ℚ) (t : Int) (fuel : Nat) (left right : Nat) :
    dtLoop p t (fuel + 1) left right =
      if left < right then
        match simulate p (((left + right) / 2 : Nat) : Int) with
        | .error e => .error e
        | .ok result =>
          if lastGe result t then dtLoop p t fuel left ((left + right) / 2)
          else dtLoop p t fuel ((left + right) / 2 + 1) right
      else .ok left := rfl

lemma dtLoop_spec (p : ℚ) (t : Int) (hp0 : 0 ≤ p) (hp1 : p ≤ 1) :
    ∀ (fuel left right : Nat), left ≤ right →
      ∃ n, dtLoop p t fuel left right = .ok n ∧ left ≤ n ∧ n ≤ right := by
  intro fuel
  induction fuel with
  | zero => intro l r h; exact ⟨l, rfl, le_refl l, h⟩
  | succ f ih =>
    intro l r h
    rw [dtLoop_succ]
    by_cases hlr : l < r
    · rw [if_pos hlr]
      rw [simulate_ok hp0 hp1 (Int.natCast_nonneg ((l + r) / 2))]
      set res := simLoop p
          (if ((((l + r) / 2 : Nat) : Int)) > MAX_DAYS then MAX_DAYS
            else (((l + r) / 2 : Nat) : Int)).toNat
          (List.replicate initialActiveReferrers 0) 0 with hres
      show ∃ n, (if lastGe res t = true then dtLoop p t f l ((l + r) / 2)
          else dtLoop p t f ((l + r) / 2 + 1) r) = .ok n ∧ l ≤ n ∧ n ≤ r
      by_cases hge : lastGe res t
      · rw [if_pos hge]
        obtain ⟨n, hn, h1, h2⟩ := ih l ((l + r) / 2) (by omega)
        exact ⟨n, hn, h1, by omega⟩
      · rw [if_neg hge]
        obtain ⟨n, hn, h1, h2⟩ := ih ((l + r) / 2 + 1) r (by omega)
        exact ⟨n, hn, by omega, h2⟩
    · rw [if_neg hlr]
      exact ⟨l, rfl, le_refl l, h⟩

lemma daysToTarget_eq (p : ℚ) (t : Int) :
    daysToTarget p t =
      if p < 0 ∨ p > 1 then
        .error "Probability p must be between 0 and 1"
      else if t < 0 then .error "Target total must be non-negative"
      else if t = 0 then .ok (some 0)
      else if p = 0 then .ok none
      else
        match dtLoop p t ((max 1 t).toNat + 1) 0 (max 1 t).toNat with
        | .error e => .error e
        | .ok n => .ok (some n) := rfl

/-- Claim C9: for every positive valid probability and non-negative
target, `daysToTarget` returns a finite day count within
`[0, max(1, targetTotal)]` — never the unbounded sentinel. -/
theorem daysToTarget_total (p : ℚ) (t : Int) (hp0 : 0 < p) (hp1 : p ≤ 1)
    (ht : 0 ≤ t) :
    ∃ n : Nat, daysToTarget p t = .ok (some n) ∧ (n : Int) ≤ max 1 t := by
  rw [daysToTarget_eq]
  rw [if_neg (by push_neg; constructor <;> linarith)]
  rw [if_neg (by omega)]
  by_cases ht0 : t = 0
  · rw [if_pos ht0]
    exact ⟨0, rfl, by omega⟩
  · rw [if_neg ht0, if_neg (by positivity)]
    obtain ⟨n, hn, _, h2⟩ :=
      dtLoop_spec p t (le_of_lt hp0) hp1 ((max 1 t).toNat + 1) 0
        (max 1 t).toNat (by omega)
    rw [hn]
    exact ⟨n, rfl, by omega⟩

/-- Witness: `daysToTarget(1, 5)` is a finite day count within bounds. -/
theorem daysToTarget_total_witness :
    (0 : ℚ) < 1 ∧ (1 : ℚ) ≤ 1 ∧ (0 : Int) ≤ 5 ∧
    ∃ n : Nat, daysToTarget 1 5 = .ok (some n) ∧ (n : Int) ≤ max 1 5 :=
  ⟨by decide, by decide, by decide,
    daysToTarget_total 1 5 (by decide) (by decide) (by decide)⟩

set_option maxRecDepth 1000000 in
/-- Claim C4 (refuted): the target `2` is reachable under
`p = 1/200` — four days suffice — yet the binary search of
`daysToTarget`, capped at `max(1, 2) = 2` days, returns `2`, and
`simulate(1/200, 2)` ends at `1 < 2`. -/
theorem daysToTarget_misses_reachable_target :
    (∃ d : Int, 0 ≤ d ∧
      ∃ l, simulate (1/200 : ℚ) d = .ok l ∧ lastGe l 2 = true) ∧
    daysToTarget (1/200 : ℚ) 2 = .ok (some 2) ∧
    simulate (1/200 : ℚ) 2 = .ok [0, 1] ∧
    lastGe [0, 1] 2 = false := by
  refine ⟨⟨4, by decide, [0, 1, 1, 2], by decide, by decide⟩,
    by decide, by decide, by decide⟩


lemma dayStep_bounded (p : ℚ) :
    ∀ counts : List ℚ, (∀ c ∈ counts, c < referralCapacity) →
      dayStep p counts = ((counts.length : ℚ) * p, counts.map (· + p)) := by
  intro counts h
  induction counts with
  | nil => simp [dayStep_nil]
  | cons c l ih =>
    rw [dayStep_cons, if_pos (h c (List.mem_cons_self c l)),
      ih (fun x hx => h x (List.mem_cons_of_mem c hx))]
    simp only [List.map_cons, List.length_cons, Prod.mk.injEq]
    exact ⟨by push_cast; ring, trivial⟩

lemma simLoop_one_cont (d e n : Nat) (counts : List ℚ) (total : ℚ)
    (hd : d = e + 1) (hn : counts.length = n)
    (hall : ∀ c ∈ counts, c < referralCapacity)
    (hlt : n + n < MAX_REFERRERS) :
    simLoop 1 d counts total =
      Int.floor (total + (n : ℚ)) ::
        simLoop 1 e (counts.map (· + 1) ++ List.replicate n 0)
          (total + (n : ℚ)) := by
  subst hd
  rw [simLoop_succ, dayStep_bounded 1 counts hall, hn]
  simp only [mul_one, Int.floor_natCast, Int.toNat_natCast, List.length_map, hn]
  rw [Nat.min_eq_left (by omega)]
  rw [if_neg (by
    simp only [List.length_append, List.length_map, List.length_replicate, hn]
    omega)]

lemma simLoop_one_break (d e n : Nat) (counts : List ℚ) (total : ℚ)
    (hd : d = e + 1) (hn : counts.length = n)
    (hall : ∀ c ∈ counts, c < referralCapacity)
    (hge : MAX_REFERRERS ≤ n + min n (MAX_REFERRERS - n)) :
    simLoop 1 d counts total = [Int.floor (total + (n : ℚ))] := by
  subst hd
  rw [simLoop_succ, dayStep_bounded 1 counts hall, hn]
  simp only [mul_one, Int.floor_natCast, Int.toNat_natCast, List.length_map, hn]
  rw [if_pos (by
    simp only [List.length_append, List.length_map, List.length_replicate, hn]
    omega)]

lemma all_lt_append {l1 l2 : List ℚ}
    (h1 : ∀ c ∈ l1, c < referralCapacity)
    (h2 : ∀ c ∈ l2, c < referralCapacity) :
    ∀ c ∈ l1 ++ l2, c < referralCapacity := by
  intro c hc
  rcases List.mem_append.mp hc with h | h
  · exact h1 c h
  · exact h2 c h

lemma all_lt_replicate {n : Nat} {v : ℚ} (h : v < referralCapacity) :
    ∀ c ∈ List.replicate n v, c < referralCapacity := by
  intro c hc
  rw [List.eq_of_mem_replicate hc]
  exact h

lemma simulate_one_seven :
    simulate 1 7 = .ok [100, 300, 700, 1500, 3100, 6300] := by
  rw [simulate_ok (by norm_num) (le_refl 1) (by norm_num [MAX_DAYS])]
  norm_num [MAX_DAYS, initialActiveReferrers]
  rw [show Int.toNat 7 = 7 from rfl]
  rw [simLoop_one_cont 7 6 100 _ _ rfl (by simp)
    (all_lt_replicate (by norm_num [referralCapacity])) (by decide)]
  norm_num [List.map_replicate]
  rw [simLoop_one_cont 6 5 200 _ _ rfl
    (by norm_num [List.length_append, List.length_replicate])
    (all_lt_append (all_lt_replicate (by norm_num [referralCapacity]))
      (all_lt_replicate (by norm_num [referralCapacity]))) (by decide)]
  norm_num [List.map_append, List.map_replicate]
  rw [simLoop_one_cont 5 4 400 _ _ rfl
    (by norm_num [List.length_append, List.length_replicate])
    (all_lt_append (all_lt_replicate (by norm_num [referralCapacity]))
      (all_lt_append (all_lt_replicate (by norm_num [referralCapacity]))
        (all_lt_replicate (by norm_num [referralCapacity])))) (by decide)]
  norm_num [List.map_append, List.map_replicate]
  rw [simLoop_one_cont 4 3 800 _ _ rfl
    (by norm_num [List.length_append, List.length_replicate])
    (all_lt_append (all_lt_replicate (by norm_num [referralCapacity]))
      (all_lt_append (all_lt_replicate (by norm_num [referralCapacity]))
        (all_lt_append (all_lt_replicate (by norm_num [referralCapacity]))
          (all_lt_replicate (by norm_num [referralCapacity]))))) (by decide)]
  norm_num [List.map_append, List.map_replicate]
  rw [simLoop_one_cont 3 2 1600 _ _ rfl
    (by norm_num [List.length_append, List.length_replicate])
    (all_lt_append (all_lt_replicate (by norm_num [referralCapacity]))
      (all_lt_append (all_lt_replicate (by norm_num [referralCapacity]))
        (all_lt_append (all_lt_replicate (by norm_num [referralCapacity]))
          (all_lt_append (all_lt_replicate (by norm_num [referralCapacity]))
            (all_lt_replicate (by norm_num [referralCapacity])))))) (by decide)]
  norm_num [List.map_append, List.map_replicate]
  rw [simLoop_one_break 2 1 3200 _ _ rfl
    (by norm_num [List.length_append, List.length_replicate])
    (all_lt_append (all_lt_replicate (by norm_num [referralCapacity]))
      (all_lt_append (all_lt_replicate (by norm_num [referralCapacity]))
        (all_lt_append (all_lt_replicate (by norm_num [referralCapacity]))
          (all_lt_append (all_lt_replicate (by norm_num [referralCapacity]))
            (all_lt_append (all_lt_replicate (by norm_num [referralCapacity]))
              (all_lt_replicate (by norm_num [referralCapacity]))))))) (by decide)]
  norm_num

/-- Claim C10: `simulate` returns at most `min(days, 100)` entries:
durations above one hundred days are truncated to one hundred, and the
sequence can be strictly shorter because the day on which the slot
population reaches its cap of five thousand is the last one recorded. -/
theorem simulate_length_cap :
    (∀ (p : ℚ) (d : Int) (l : List Int), simulate p d = .ok l →
      (l.length : Int) ≤ min d MAX_DAYS) ∧
    (∀ (p : ℚ) (d : Int), d > MAX_DAYS →
      simulate p d = simulate p MAX_DAYS) ∧
    (∃ (p : ℚ) (d : Int) (l : List Int), 0 ≤ p ∧ p ≤ 1 ∧ 0 ≤ d ∧
      simulate p d = .ok l ∧ (l.length : Int) < min d MAX_DAYS) := by
  refine ⟨?_, ?_, ?_⟩
  · intro p d l hok
    rw [simulate_eq] at hok
    by_cases hp : p < 0 ∨ p > 1
    · rw [if_pos hp] at hok; exact absurd hok (by simp)
    rw [if_neg hp] at hok
    by_cases hgt : d > MAX_DAYS
    · rw [if_pos hgt, if_neg (by unfold MAX_DAYS; omega)] at hok
      obtain rfl := Except.ok.inj hok
      have hlen := simLoop_length p MAX_DAYS.toNat
        (List.replicate initialActiveReferrers 0) 0
      unfold MAX_DAYS at hgt hlen ⊢
      omega
    · rw [if_neg hgt] at hok
      by_cases hneg : d < 0
      · rw [if_pos hneg] at hok; exact absurd hok (by simp)
      · rw [if_neg hneg] at hok
        obtain rfl := Except.ok.inj hok
        have hlen := simLoop_length p d.toNat
          (List.replicate initialActiveReferrers 0) 0
        unfold MAX_DAYS at hgt ⊢
        omega
  · intro p d hgt
    rw [simulate_eq, simulate_eq, if_pos hgt,
      if_neg (lt_irrefl MAX_DAYS)]
  · exact ⟨1, 7, [100, 300, 700, 1500, 3100, 6300], by norm_num,
      le_refl 1, by norm_num, simulate_one_seven, by decide⟩



lemma mbLoop_succ (days targetHires : Int) (f : ℚ → ℚ) (eps : ℚ)
    (fuel : Nat) (minB maxB : ℚ) :
    mbLoop days targetHires f eps (fuel + 1) minB maxB =
      if eps < maxB - minB then
        if f ((minB + maxB) / 2) > 0 then
          match simulate (f ((minB + maxB) / 2)) days with
          | .error e => .error e
          | .ok result =>
            if lastGe result targetHires then
              mbLoop days targetHires f eps fuel minB ((minB + maxB) / 2)
            else mbLoop days targetHires f eps fuel ((minB + maxB) / 2) maxB
        else mbLoop days targetHires f eps fuel ((minB + maxB) / 2) maxB
      else .ok (minB, maxB) := rfl

lemma mbFinish_eq (days targetHires : Int) (f : ℚ → ℚ) (eps : ℚ) :
    mbFinish days targetHires f eps =
      match mbLoop days targetHires f eps (mbFuel eps) 0 10000 with
      | .error e => .error e
      | .ok (_, maxB) =>
        if f (((⌈maxB / eps⌉ : ℤ) : ℚ) * eps) > 0 then
          match simulate (f (((⌈maxB / eps⌉ : ℤ) : ℚ) * eps)) days with
          | .error e => .error e
          | .ok finalResult =>
            if lastGe finalResult targetHires then
              .ok (some (((⌈maxB / eps⌉ : ℤ) : ℚ) * eps))
            else .ok none
        else .ok none := rfl

lemma mbFinish_spec {days targetHires : Int} {f : ℚ → ℚ} {eps b : ℚ}
    (h : mbFinish days targetHires f eps = .ok (some b)) :
    (∃ k : ℤ, b = (k : ℚ) * eps) ∧
    ∃ res, simulate (f b) days = .ok res ∧
      lastGe res targetHires = true := by
  rw [mbFinish_eq] at h
  split at h
  · exact absurd h (by simp)
  rename_i fst maxB heq
  split at h
  · split at h
    · exact absurd h (by simp)
    rename_i res hres
    split at h
    · rename_i hge
      have hb : (((⌈maxB / eps⌉ : ℤ) : ℚ) * eps) = b := by
        simpa using h
      obtain rfl := hb
      exact ⟨⟨⌈maxB / eps⌉, rfl⟩, res, hres, hge⟩
    · exact absurd h (by simp)
  · exact absurd h (by simp)

lemma mbLoop_zero (days targetHires : Int) (eps : ℚ) :
    ∀ (fuel : Nat) (minB maxB : ℚ),
      ∃ m, mbLoop days targetHires (fun _ => 0) eps fuel minB maxB =
        .ok (m, maxB) := by
  intro fuel
  induction fuel with
  | zero => intro minB maxB; exact ⟨minB, rfl⟩
  | succ f ih =>
    intro minB maxB
    rw [mbLoop_succ]
    by_cases hlt : eps < maxB - minB
    · rw [if_pos hlt, if_neg (lt_irrefl (0 : ℚ))]
      exact ih _ maxB
    · rw [if_neg hlt]
      exact ⟨minB, rfl⟩

lemma mbFinish_zero (days targetHires : Int) (eps : ℚ) :
    mbFinish days targetHires (fun _ => 0) eps = .ok none := by
  obtain ⟨m, hm⟩ := mbLoop_zero days targetHires eps (mbFuel eps) 0 10000
  rw [mbFinish_eq, hm]
  show (if (0 : ℚ) > 0 then _ else Except.ok none) = Except.ok none
  exact if_neg (lt_irrefl (0 : ℚ))

lemma minBonusForTarget_eq (days targetHires : Int) (f : ℚ → ℚ)
    (eps : ℚ) :
    minBonusForTarget days targetHires f eps =
      if days < 0 then .error "Days must be non-negative"
      else if targetHires < 0 then
        .error "Target hires must be non-negative"
      else if eps ≤ 0 then .error "Precision eps must be positive"
      else if targetHires = 0 then .ok (some 0)
      else if f 10000 > 0 then
        match simulate (f 10000) days with
        | .error e => .error e
        | .ok maxResult =>
          if lastLt maxResult targetHires then .ok none
          else mbFinish days targetHires f eps
      else mbFinish days targetHires f eps := rfl

/-- Claim C5: whenever `minBonusForTarget` returns a non-sentinel bonus
`b` for a positive target, `b` is an integer multiple of `eps` and the
defensive final re-verification held: the last entry of
`simulate(adoptionProb(b), days)` reaches the target; and the
constant-zero adoption curve always yields the `null` sentinel. -/
theorem minBonusForTarget_spec :
    (∀ (days targetHires : Int) (f : ℚ → ℚ) (eps b : ℚ),
      0 ≤ days → 0 < targetHires → 0 < eps →
      minBonusForTarget days targetHires f eps = .ok (some b) →
      (∃ k : ℤ, b = (k : ℚ) * eps) ∧
      ∃ res, simulate (f b) days = .ok res ∧
        lastGe res targetHires = true) ∧
    (∀ (days targetHires : Int) (eps : ℚ), 0 ≤ days → 0 < targetHires →
      0 < eps →
      minBonusForTarget days targetHires (fun _ => 0) eps = .ok none) := by
  constructor
  · intro days t f eps b hd ht he h
    rw [minBonusForTarget_eq] at h
    split at h
    · exact absurd h (by simp)
    split at h
    · exact absurd h (by simp)
    split at h
    · exact absurd h (by simp)
    split at h
    · rename_i h0
      exact absurd h0 (by omega)
    split at h
    · split at h
      · exact absurd h (by simp)
      · split at h
        · exact absurd h (by simp)
        · exact mbFinish_spec h
    · exact mbFinish_spec h
  · intro days t eps hd ht he
    rw [minBonusForTarget_eq, if_neg (by omega), if_neg (by omega),
      if_neg (not_le.mpr he), if_neg (by omega),
      if_neg (lt_irrefl (0 : ℚ))]
    exact mbFinish_zero days t eps

/-- Witness: the constant-zero adoption curve yields the sentinel at
concrete arguments. -/
theorem minBonusForTarget_spec_witness :
    (0 : Int) ≤ 0 ∧ (0 : Int) < 1 ∧ (0 : ℚ) < 10 ∧
    minBonusForTarget 0 1 (fun _ => 0) 10 = .ok none :=
  ⟨by decide, by decide, by decide,
    minBonusForTarget_spec.2 0 1 10 (by decide) (by decide) (by decide)⟩


end Simulation
